import Mathlib

/-!
# xmlx: a generic XML node tree and its query operations

A shallow embedding of `node.go` (package `xmlx`). Go strings are modelled by `String`,
slices by `List`, the attribute map by an association list, and a `*Node` result that may be
`nil` by `Option Node`. Every Go loop is a recursive function that follows the loop body
statement by statement; each source function has its own loop, also where the source repeats
the same loop text in several functions.
-/

namespace Xmlx

/-! ## Data model -/

/-- Node is a generic XML node (`type Node struct`). The unexported field `prefix` of the
source is called `pathPrefix` here. -/
structure Node where
  Name : String
  Attrs : List (String × String)
  Data : String
  Nodes : List Node
  pathPrefix : String
  IsInvalid : Bool

/-- The zero value `Node{}` of the source. -/
def Node.zero : Node := ⟨"", [], "", [], "", false⟩

/-! ## Go standard library: `strings.Split` with a one-byte separator -/

/-- Splitting of a character sequence at every occurrence of `sep`; the result always has
one more element than there are separators, so it is never empty. -/
def splitChars (sep : Char) : List Char → List (List Char)
  | [] => [[]]
  | c :: cs =>
    if c = sep then [] :: splitChars sep cs
    else
      match splitChars sep cs with
      | [] => [[c]]
      | h :: t => (c :: h) :: t

/-- Go `strings.Split(s, sep)` for a separator of one ASCII character. -/
def stringsSplit (s : String) (sep : Char) : List String :=
  (splitChars sep s.data).map String.mk

/-! ## Path Navigator -/

/-- The inner scan `for _, node := range currentNodeT.Nodes { if node.Name == term { ... break } }`:
the first node of the list whose name is `term`, or `none` when `foundT` stays false. -/
def scanNodes (term : String) : List Node → Option Node
  | [] => none
  | node :: rest => if node.Name = term then some node else scanNodes term rest

/-- The loop `for _, term := range labelsA` of `GetSubNode`. -/
def GetSubNode.loop (currentNodeT : Node) : List String → Option Node
  | [] => some currentNodeT
  | term :: rest =>
    if term = "" then GetSubNode.loop currentNodeT rest
    else
      match scanNodes term currentNodeT.Nodes with
      | some node => GetSubNode.loop node rest
      | none => none

/-- Embedding of `func (n Node) GetSubNode(labelsA ...string) *Node`. -/
def Node.GetSubNode (n : Node) (labelsA : List String) : Option Node :=
  if labelsA.length = 0 then some n
  else GetSubNode.loop n labelsA

/-- The loop `for _, term := range labelsT` of `GetSubNodeX`. -/
def GetSubNodeX.loop (currentNodeT : Node) : List String → Option Node
  | [] => some currentNodeT
  | term :: rest =>
    if term = "" then GetSubNodeX.loop currentNodeT rest
    else
      match scanNodes term currentNodeT.Nodes with
      | some node => GetSubNodeX.loop node rest
      | none => none

/-- Embedding of `func (n Node) GetSubNodeX(labelsA string) *Node`. -/
def Node.GetSubNodeX (n : Node) (labelsA : String) : Option Node :=
  let labelsT := stringsSplit labelsA '/'
  if labelsT.length = 0 then some n
  else GetSubNodeX.loop n labelsT

/-- The loop `for _, term := range labelsA` of `GetSubNodeString`. -/
def GetSubNodeString.loop (currentNodeT : Node) : List String → String
  | [] => currentNodeT.Data
  | term :: rest =>
    if term = "" then GetSubNodeString.loop currentNodeT rest
    else
      match scanNodes term currentNodeT.Nodes with
      | some node => GetSubNodeString.loop node rest
      | none => ""

/-- Embedding of `func (n Node) GetSubNodeString(labelsA ...string) string`. -/
def Node.GetSubNodeString (n : Node) (labelsA : List String) : String :=
  if labelsA.length = 0 then ""
  else GetSubNodeString.loop n labelsA

/-- The loop `for _, term := range labelsT` of `GetSubNodeStringX`; the source has no
`if term == "" { continue }` in this loop. -/
def GetSubNodeStringX.loop (currentNodeT : Node) : List String → String
  | [] => currentNodeT.Data
  | term :: rest =>
    match scanNodes term currentNodeT.Nodes with
    | some node => GetSubNodeStringX.loop node rest
    | none => ""

/-- Embedding of `func (n Node) GetSubNodeStringX(labelsA string) string`. -/
def Node.GetSubNodeStringX (n : Node) (labelsA : String) : String :=
  let labelsT := stringsSplit labelsA '/'
  if labelsT.length = 0 then ""
  else GetSubNodeStringX.loop n labelsT

/-! ## Predicate Search -/

/-- The loop of `SubNodes`: `bufT` grows by every node whose name is `labelA`. -/
def SubNodes.loop (labelA : String) (bufT : List Node) : List Node → List Node
  | [] => bufT
  | node :: rest =>
    if node.Name = labelA then SubNodes.loop labelA (bufT ++ [node]) rest
    else SubNodes.loop labelA bufT rest

/-- Embedding of `func (n Node) SubNodes(labelA string) []Node`. -/
def Node.SubNodes (n : Node) (labelA : String) : List Node :=
  if labelA = "" then n.Nodes
  else SubNodes.loop labelA [] n.Nodes

/-- The loop `for _, node := range nodesT` of `GetSubNodeBy`. -/
def GetSubNodeBy.loop (subLabelA valueA : String) : List Node → Option Node
  | [] => none
  | node :: rest =>
    match node.GetSubNode [subLabelA] with
    | none => GetSubNodeBy.loop subLabelA valueA rest
    | some subNodeT =>
      if subNodeT.Data = valueA then some node
      else GetSubNodeBy.loop subLabelA valueA rest

/-- Embedding of `func (n Node) GetSubNodeBy(labelA string, subLabelA string, valueA string) *Node`. -/
def Node.GetSubNodeBy (n : Node) (labelA subLabelA valueA : String) : Option Node :=
  GetSubNodeBy.loop subLabelA valueA (n.SubNodes labelA)

/-- The loop `for _, node := range nodesT` of `GetSubNodeStringBy`. -/
def GetSubNodeStringBy.loop (subLabel1A value1A subLabel2A : String) : List Node → String
  | [] => ""
  | node :: rest =>
    match node.GetSubNode [subLabel1A] with
    | none => GetSubNodeStringBy.loop subLabel1A value1A subLabel2A rest
    | some subNode1T =>
      if subNode1T.Data ≠ value1A then GetSubNodeStringBy.loop subLabel1A value1A subLabel2A rest
      else
        match node.GetSubNode [subLabel2A] with
        | none => GetSubNodeStringBy.loop subLabel1A value1A subLabel2A rest
        | some subNode2T => subNode2T.Data

/-- Embedding of `func (n Node) GetSubNodeStringBy(labelA, subLabel1A, value1A, subLabel2A string) string`. -/
def Node.GetSubNodeStringBy (n : Node) (labelA subLabel1A value1A subLabel2A : String) :
    String :=
  GetSubNodeStringBy.loop subLabel1A value1A subLabel2A (n.SubNodes labelA)

/-- The loop `for _, node := range nodesT` of `GetSubNodeBy2`. -/
def GetSubNodeBy2.loop (subLabel1A value1A subLabel2A value2A : String) :
    List Node → Option Node
  | [] => none
  | node :: rest =>
    match node.GetSubNode [subLabel1A] with
    | none => GetSubNodeBy2.loop subLabel1A value1A subLabel2A value2A rest
    | some subNode1T =>
      if subNode1T.Data ≠ value1A then
        GetSubNodeBy2.loop subLabel1A value1A subLabel2A value2A rest
      else
        match node.GetSubNode [subLabel2A] with
        | none => GetSubNodeBy2.loop subLabel1A value1A subLabel2A value2A rest
        | some subNode2T =>
          if subNode2T.Data ≠ value2A then
            GetSubNodeBy2.loop subLabel1A value1A subLabel2A value2A rest
          else some node

/-- Embedding of `func (n Node) GetSubNodeBy2(labelA, subLabel1A, value1A, subLabel2A, value2A string) *Node`. -/
def Node.GetSubNodeBy2 (n : Node) (labelA subLabel1A value1A subLabel2A value2A : String) :
    Option Node :=
  GetSubNodeBy2.loop subLabel1A value1A subLabel2A value2A (n.SubNodes labelA)

/-- The loop `for _, node := range nodesT` of `GetSubNodeStringBy2`. -/
def GetSubNodeStringBy2.loop (subLabel1A value1A subLabel2A value2A subLabel3A : String) :
    List Node → String
  | [] => ""
  | node :: rest =>
    match node.GetSubNode [subLabel1A] with
    | none => GetSubNodeStringBy2.loop subLabel1A value1A subLabel2A value2A subLabel3A rest
    | some subNode1T =>
      if subNode1T.Data ≠ value1A then
        GetSubNodeStringBy2.loop subLabel1A value1A subLabel2A value2A subLabel3A rest
      else
        match node.GetSubNode [subLabel2A] with
        | none => GetSubNodeStringBy2.loop subLabel1A value1A subLabel2A value2A subLabel3A rest
        | some subNode2T =>
          if subNode2T.Data ≠ value2A then
            GetSubNodeStringBy2.loop subLabel1A value1A subLabel2A value2A subLabel3A rest
          else
            match node.GetSubNode [subLabel3A] with
            | none =>
              GetSubNodeStringBy2.loop subLabel1A value1A subLabel2A value2A subLabel3A rest
            | some subNode3T => subNode3T.Data

/-- Embedding of `func (n Node) GetSubNodeStringBy2(labelA, subLabel1A, value1A, subLabel2A, value2A,
subLabel3A string) string`. -/
def Node.GetSubNodeStringBy2 (n : Node)
    (labelA subLabel1A value1A subLabel2A value2A subLabel3A : String) : String :=
  GetSubNodeStringBy2.loop subLabel1A value1A subLabel2A value2A subLabel3A (n.SubNodes labelA)

/-- The inner loop `for i := 0; i < lenT; i++` of `GetSubNodeByX`, with `todo = lenT - i`
iterations left; the result is the final value of the flag `foundT` (true when some pair
does not hold). The indices `i*2` and `i*2+1` are below `len(labelValuePairA)` whenever
`i < lenT`, so the default of `getD` is never used. -/
def GetSubNodeByX.pairLoop (node : Node) (labelValuePairA : List String) : Nat → Nat → Bool
  | 0, _ => false
  | todo + 1, i =>
    match node.GetSubNodeX (labelValuePairA.getD (i * 2) "") with
    | none => true
    | some subNodeT =>
      if subNodeT.Data ≠ labelValuePairA.getD (i * 2 + 1) "" then true
      else GetSubNodeByX.pairLoop node labelValuePairA todo (i + 1)

/-- The loop `for _, node := range nodesT` of `GetSubNodeByX`. -/
def GetSubNodeByX.loop (labelValuePairA : List String) (lenT : Nat) : List Node → Option Node
  | [] => none
  | node :: rest =>
    if GetSubNodeByX.pairLoop node labelValuePairA lenT 0 then
      GetSubNodeByX.loop labelValuePairA lenT rest
    else some node

/-- Embedding of `func (n Node) GetSubNodeByX(rootLabesA string, labelA string, labelValuePairA ...string)
*Node`. -/
def Node.GetSubNodeByX (n : Node) (rootLabesA labelA : String)
    (labelValuePairA : List String) : Option Node :=
  let rootLabelsT := stringsSplit rootLabesA '/'
  match n.GetSubNode rootLabelsT with
  | none => none
  | some rootNodeT =>
    let nodesT := rootNodeT.SubNodes labelA
    let lenT := labelValuePairA.length / 2
    GetSubNodeByX.loop labelValuePairA lenT nodesT

/-! ## Splitter -/

mutual
/-- Embedding of `func (n Node) clone() Node`: a copy of the node whose children are clones of the
children. -/
def Node.clone : Node → Node
  | ⟨name, attrs, data, nodes, pathPrefix, isInvalid⟩ =>
    ⟨name, attrs, data, cloneNodes nodes, pathPrefix, isInvalid⟩
/-- The loop `for i := range n.Nodes { node.Nodes = append(node.Nodes, n.Nodes[i].clone()) }`
of `clone`. -/
def cloneNodes : List Node → List Node
  | [] => []
  | node :: rest => node.clone :: cloneNodes rest
end

/-- The inner loop `for _, node := range children[i]` of the level exploration in `Split`:
the children of every node named `term` are appended to `children[i+1]`. -/
def Split.collect (term : String) (i : Nat) (children : List (List Node)) :
    List Node → List (List Node)
  | [] => children
  | node :: rest =>
    if node.Name = term then
      Split.collect term i (children.set (i + 1) (children.getD (i + 1) [] ++ node.Nodes)) rest
    else Split.collect term i children rest

/-- The loop `for i, term := range terms` of `Split` over the leveled array `children`. -/
def Split.explore (children : List (List Node)) : Nat → List String → List (List Node)
  | _, [] => children
  | i, term :: rest =>
    Split.explore (Split.collect term i children (children.getD i [])) (i + 1) rest

/-- The loop `var i int; for i < len(node.Nodes) { ...; i++ }` of `Split`, which deletes the
child at index `i` when it carries the name `terms[0]` and then advances `i` in either case.
The first argument bounds the number of iterations; `len(node.Nodes) - i` of them are enough
(see `Split_removeLoop_fuel`). -/
def Split.removeLoop (term0 : String) : Nat → List Node → Nat → List Node
  | 0, nodes, _ => nodes
  | fuel + 1, nodes, i =>
    if i < nodes.length then
      if (nodes.getD i Node.zero).Name = term0 then
        Split.removeLoop term0 fuel (nodes.take i ++ nodes.drop (i + 1)) (i + 1)
      else Split.removeLoop term0 fuel nodes (i + 1)
    else nodes

/-- The loop `for _, child := range children[gen]` of `Split`, which collects one output
node per leaf in `nodes`. -/
def Split.build (n : Node) (terms : List String) (gen : Nat) (nodes : List Node) :
    List Node → List Node
  | [] => nodes
  | child :: rest =>
    let node := n.clone
    let kept := Split.removeLoop (terms.getD 0 "") node.Nodes.length node.Nodes 0
    let child := { child with Name := terms.getD (gen - 1) "" }
    let node := { node with Nodes := kept ++ [child] }
    Split.build n terms gen (nodes ++ [node]) rest

/-- Embedding of `func (n Node) Split(label string) []Node`. -/
def Node.Split (n : Node) (label : String) : List Node :=
  if label.length = 0 then [n]
  else
    let terms := stringsSplit label '.'
    let gen := terms.length
    let children := (List.replicate (gen + 1) ([] : List Node)).set 0 n.Nodes
    let children := Split.explore children 0 terms
    Split.build n terms gen [] (children.getD gen [])

/-! ## Example documents -/

/-- A node with a name, character data and children, and no attributes. -/
def elem (name data : String) (nodes : List Node) : Node :=
  ⟨name, [], data, nodes, "", false⟩

/-- A node with a name, one attribute `x`, character data and no children. -/
def elemX (name x data : String) : Node :=
  ⟨name, [("x", x)], data, [], "", false⟩

/-- The tree of `<a><b x="1">hi</b><b x="2">yo</b></a>`. -/
def docHiYo : Node := elem "a" "" [elemX "b" "1" "hi", elemX "b" "2" "yo"]

/-- The tree of `<a><b><c>1</c></b><b><c>2</c></b></a>`. -/
def docSplit : Node :=
  elem "a" "" [elem "b" "" [elem "c" "1" []], elem "b" "" [elem "c" "2" []]]

/-! ## Specification-side definitions -/

/-- The first direct child of `n` whose name is `label`, in the words of the specification. -/
def firstChildNamed (n : Node) (label : String) : Option Node :=
  n.Nodes.find? (fun c => decide (c.Name = label))

/-- Path descent in the words of the specification: a fold over the non-empty labels, each
step replacing the current node by its first direct child of that name. -/
def descentFold (n : Node) (labels : List String) : Option Node :=
  (labels.filter (fun l => decide (l ≠ ""))).foldl
    (fun cur l => cur.bind (fun c => firstChildNamed c l)) (some n)

/-- The direct children of `n` whose name is `label`, in document order. -/
def childrenNamed (n : Node) (label : String) : List Node :=
  n.Nodes.filter (fun c => decide (c.Name = label))

/-- The candidate condition of the predicate search, in the words of the specification:
`c.GetSubNode(sub)` is found and its Data equals `value`. -/
def condHolds (c : Node) (sub value : String) : Bool :=
  match c.GetSubNode [sub] with
  | some s => decide (s.Data = value)
  | none => false

/-- Whether `c.GetSubNode(sub)` is found. -/
def hasSub (c : Node) (sub : String) : Bool :=
  (c.GetSubNode [sub]).isSome

/-- The Data of `c.GetSubNode(sub)`, and `""` when it is not found. -/
def dataAt (c : Node) (sub : String) : String :=
  match c.GetSubNode [sub] with
  | some s => s.Data
  | none => ""

/-- The (path, value) pairs of an alternating list; a trailing element without a partner is
left out. -/
def pairsOf : List String → List (String × String)
  | a :: b :: rest => (a, b) :: pairsOf rest
  | _ => []

/-- The condition of one (path, value) pair on a candidate: `c.GetSubNodeX(path)` is found
and its Data equals the value. -/
def pairHoldsX (c : Node) (p : String × String) : Bool :=
  match c.GetSubNodeX p.1 with
  | some s => decide (s.Data = p.2)
  | none => false

/-- The tree of `<r><b><k>1</k></b><b><k>1</k><v>x</v></b></r>`. -/
def docBy : Node :=
  elem "r" "" [elem "b" "" [elem "k" "1" []], elem "b" "" [elem "k" "1" [], elem "v" "x" []]]

/-- The nodes named `c` that are children of a direct child of `a` named `b`, in document
order. -/
def cNodesUnderB (a : Node) : List Node :=
  ((childrenNamed a "b").flatMap (fun b => b.Nodes)).filter (fun c => decide (c.Name = "c"))

/-- The children of the nodes of `cNodesUnderB a`, in document order. -/
def leavesUnderBC (a : Node) : List Node :=
  (cNodesUnderB a).flatMap (fun c => c.Nodes)

/-! ## Recursive Finder -/

/-- Embedding of `func (p Node) IsValid() bool`. -/
def Node.IsValid (p : Node) : Bool :=
  !p.IsInvalid

/-- The sentinel `Node{IsInvalid: true}` that `FindNodeRecursively` returns on failure. -/
def Node.invalid : Node := ⟨"", [], "", [], "", true⟩

mutual
/-- Embedding of `func (p Node) FindNodeRecursively(label string) Node`. -/
def Node.FindNodeRecursively : Node → String → Node
  | ⟨name, attrs, data, nodes, pathPrefix, isInvalid⟩, label =>
    if label.length = 0 then ⟨name, attrs, data, nodes, pathPrefix, isInvalid⟩
    else FindNodeRecursively.loop nodes label
/-- The loop `for _, node := range p.Nodes` of `FindNodeRecursively`. -/
def FindNodeRecursively.loop : List Node → String → Node
  | [], _ => Node.invalid
  | node :: rest, label =>
    if node.Name = label then node
    else if node.Nodes.length > 0 then
      let subResult := node.FindNodeRecursively label
      if subResult.IsInvalid = false then subResult
      else FindNodeRecursively.loop rest label
    else FindNodeRecursively.loop rest label
end

mutual
/-- Embedding of `func (p Node) FindNode(label string) *Node`. -/
def Node.FindNode : Node → String → Option Node
  | ⟨name, attrs, data, nodes, pathPrefix, isInvalid⟩, label =>
    if label.length = 0 then some ⟨name, attrs, data, nodes, pathPrefix, isInvalid⟩
    else FindNode.loop nodes label
/-- The loop `for _, node := range p.Nodes` of `FindNode`. -/
def FindNode.loop : List Node → String → Option Node
  | [], _ => none
  | node :: rest, label =>
    if node.Name = label then some node
    else if node.Nodes.length > 0 then
      match node.FindNode label with
      | some subResult => some subResult
      | none => FindNode.loop rest label
    else FindNode.loop rest label
end

mutual
/-- The proper descendants of a node in depth-first pre-order: every child is followed by
its own descendants and then by its later siblings. -/
def Node.descendants : Node → List Node
  | ⟨_, _, _, nodes, _, _⟩ => descendantsOf nodes
/-- The nodes of a sequence of trees in depth-first pre-order. -/
def descendantsOf : List Node → List Node
  | [] => []
  | node :: rest => node :: (node.descendants ++ descendantsOf rest)
end

/-- The tree of `<a><x><b>deep</b></x><b>shallow</b></a>`. -/
def docDeep : Node :=
  elem "a" "" [elem "x" "" [elem "b" "deep" []], elem "b" "shallow" []]

/-- No node of the tree is marked invalid: neither the node itself nor any of its proper
descendants has `IsInvalid` set. -/
def Node.noInvalid (p : Node) : Prop :=
  p.IsInvalid = false ∧ ∀ d ∈ p.descendants, d.IsInvalid = false

/-- The tree of `<a><x><y>1</y></x><b>first</b><b>second</b></a>`. -/
def docFirst : Node :=
  elem "a" "" [elem "x" "" [elem "y" "1" []], elem "b" "first" [], elem "b" "second" []]

/-- The levels of `Split` in the words of the specification: level 0 is the children of `n`,
and level `i+1` is the concatenation, in order, of the children of every node of level `i`
named `terms[i]`. -/
def Split.level (n : Node) (terms : List String) : Nat → List Node
  | 0 => n.Nodes
  | i + 1 =>
    ((Split.level n terms i).filter (fun c => decide (c.Name = terms.getD i ""))).flatMap
      (fun c => c.Nodes)

/-! ## Flattener -/

/-- Assignment `m[k] = v` on a Go `map[string]string`, held as a list of entries with
distinct keys: an entry with the key `k` is replaced. -/
def mapPut (m : List (String × String)) (k v : String) : List (String × String) :=
  (k, v) :: m.filter (fun e => decide (e.1 ≠ k))

/-- Lookup `m[k]` on a Go `map[string]string`, `none` when the key is absent. -/
def mapGet (m : List (String × String)) (k : String) : Option String :=
  match m.find? (fun e => decide (e.1 = k)) with
  | some e => some e.2
  | none => none

/-- The loop `for k, v := range n.Attrs` of `flatten`. -/
def flatten.attrs (t : List (String × String)) :
    List (String × String) → List (String × String)
  | [] => t
  | (k, v) :: rest => flatten.attrs (mapPut t ("#attr." ++ k) v) rest

/-- Embedding of `func (n Node) flatten() map[string]string`. -/
def Node.flatten (n : Node) : List (String × String) :=
  let t : List (String × String) := []
  let t := if n.Name.length ≠ 0 then mapPut t "#name" n.Name else t
  let t := if n.Data.length ≠ 0 then mapPut t "#data" n.Data else t
  flatten.attrs t n.Attrs

/-- The first loop of `Map`, which queues every child of `n` with the path prefix
`#nodes.<name>`. -/
def Map.start (toProcess : List Node) : List Node → List Node
  | [] => toProcess
  | node :: rest =>
    Map.start (toProcess ++ [{ node with pathPrefix := "#nodes." ++ node.Name }]) rest

/-- The loop `for k, v := range node.flatten()` of `Map`, which writes every fact of the
node under its path prefix. -/
def Map.write (out : List (String × String)) (pathPrefix : String) :
    List (String × String) → List (String × String)
  | [] => out
  | (k, v) :: rest => Map.write (mapPut out (pathPrefix ++ "." ++ k) v) pathPrefix rest

/-- The loop `for _, child := range node.Nodes` of `Map`, which queues the children of the
node being processed. -/
def Map.queue (pathPrefix : String) (toProcess : List Node) : List Node → List Node
  | [] => toProcess
  | child :: rest =>
    Map.queue pathPrefix
      (toProcess ++ [{ child with pathPrefix := pathPrefix ++ ".#nodes." ++ child.Name }]) rest

/-- The loop `var i int; for i < len(toProcess) { ...; i++ }` of `Map`. The first argument
bounds the number of iterations; the number of nodes still to visit is enough (see
`Map_loop_fuel`). -/
def Map.loop : Nat → List (String × String) → List Node → Nat → List (String × String)
  | 0, out, _, _ => out
  | fuel + 1, out, toProcess, i =>
    if i < toProcess.length then
      let node := toProcess.getD i Node.zero
      let out := Map.write out node.pathPrefix node.flatten
      let toProcess := Map.queue node.pathPrefix toProcess node.Nodes
      Map.loop fuel out toProcess (i + 1)
    else out

/-- Embedding of `func (n Node) Map() map[string]string`. -/
def Node.Map (n : Node) : List (String × String) :=
  let out := n.flatten
  let toProcess := Map.start [] n.Nodes
  Map.loop (descendantsOf n.Nodes).length out toProcess 0

/-- The tree of `<a><b>1</b><b>2</b></a>`. -/
def docOneTwo : Node := elem "a" "" [elem "b" "1" [], elem "b" "2" []]

/-- The tree of `<a><b x="1">1</b><b></b></a>`. -/
def docStale : Node := elem "a" "" [elemX "b" "1" "1", elem "b" "" []]

/-- A key lies under the `#nodes.` marker when it starts with `#nodes.`; the keys written
for descendants all do. -/
def underNodes (key : String) : Prop :=
  "#nodes.".data <+: key.data

/-- A node with the attributes `x="1"` and `y="2"`, the text `t` and one child
`<b x="3">hi</b>`. -/
def docAttr : Node :=
  ⟨"a", [("x", "1"), ("y", "2")], "t", [elemX "b" "3" "hi"], "", false⟩

/-! ## Tree Builder -/

/-- The tokens of `encoding/xml` that `UnmarshalXML` reads: `xml.StartElement` (local name
and attributes), `xml.EndElement` (local name), `xml.CharData`, and every other token
(`xml.Comment`, `xml.ProcInst`, `xml.Directive`), which the `switch` ignores. -/
inductive Token where
  | StartElement (name : String) (attr : List (String × String))
  | EndElement (name : String)
  | CharData (text : String)
  | Other

/-- One answer of the token source `d.Token()`: a token, or an error other than `io.EOF`.
A token source is the list of the answers it gives, in order; when the list is used up,
`d.Token()` returns `io.EOF`. Every list is a token source for the loop of `UnmarshalXML`;
the lists that a `*xml.Decoder` gives are those of `decoderAnswers`, which answers the end
of its input with `io.EOF` only when no element is open and with a syntax error when one
is. -/
inductive Event where
  | token (t : Token)
  | failure (e : String)

/-- The result of `UnmarshalXML`: `done n d` for the return value `nil` with the receiver
`n` and the remaining token source `d`; `failed e` for the returned error `e`; `outOfFuel`
when the iteration bound of the embedding is used up (see `UnmarshalXML_loop_total`). -/
inductive Outcome where
  | done (n : Node) (d : List Event)
  | failed (e : String)
  | outOfFuel

/-- Go `unicode.IsSpace`: the Latin-1 spaces and the code points with the Unicode property
White_Space. -/
def isSpace (c : Char) : Bool :=
  let v := c.toNat
  (9 ≤ v && v ≤ 13) || v = 32 || v = 0x85 || v = 0xA0 || v = 0x1680
    || (0x2000 ≤ v && v ≤ 0x200A) || v = 0x2028 || v = 0x2029 || v = 0x202F || v = 0x205F
    || v = 0x3000

/-- Go `bytes.TrimSpace`: the text without its leading and trailing white space. -/
def bytesTrimSpace (t : List Char) : List Char :=
  ((t.dropWhile isSpace).reverse.dropWhile isSpace).reverse

/-- The loop `for _, v := range start.Attr { n.Attrs[v.Name.Local] = v.Value }`. -/
def UnmarshalXML.attrs (m : List (String × String)) :
    List (String × String) → List (String × String)
  | [] => m
  | (k, v) :: rest => UnmarshalXML.attrs (mapPut m k v) rest

/-- The statements of `UnmarshalXML` before its loop: the attributes of the start element
replace `n.Attrs` when there are any, and its local name becomes `n.Name`. -/
def UnmarshalXML.begin (n : Node) (name : String) (attr : List (String × String)) : Node :=
  let n := if attr.length ≠ 0 then { n with Attrs := UnmarshalXML.attrs [] attr } else n
  { n with Name := name }

/-- The loop `for balance != 0` of `UnmarshalXML` for the start element named `startName`,
with the recursive call `node.UnmarshalXML(d, t)` on a fresh `Node{}` for a start element of
another name. The case of the used-up list is `if err == io.EOF { break }`; on the answers
of a `*xml.Decoder` (`decoderAnswers`) it is only reached when no element is open, since a
decoder with an element open answers the end of its input with a syntax error. The first
argument bounds the number of evaluations of the loop condition, in this call and in the
calls it makes; one more than the length of the token source is enough (see
`UnmarshalXML_loop_total`). -/
def UnmarshalXML.loop : Nat → String → Nat → Node → List Event → Outcome
  | 0, _, _, _, _ => Outcome.outOfFuel
  | fuel + 1, startName, balance, n, d =>
    if balance = 0 then Outcome.done n d
    else
      match d with
      | [] => Outcome.done n []
      | Event.failure e :: _ => Outcome.failed e
      | Event.token (Token.CharData t) :: rest =>
        if (bytesTrimSpace t.data).length = 0 then
          UnmarshalXML.loop fuel startName balance n rest
        else UnmarshalXML.loop fuel startName balance { n with Data := t } rest
      | Event.token (Token.StartElement name attr) :: rest =>
        if name = startName then UnmarshalXML.loop fuel startName (balance + 1) n rest
        else
          match UnmarshalXML.loop fuel name 1 (UnmarshalXML.begin Node.zero name attr) rest with
          | Outcome.done node rest2 =>
            UnmarshalXML.loop fuel startName balance { n with Nodes := n.Nodes ++ [node] } rest2
          | Outcome.failed e => Outcome.failed e
          | Outcome.outOfFuel => Outcome.outOfFuel
      | Event.token (Token.EndElement name) :: rest =>
        if name = startName then UnmarshalXML.loop fuel startName (balance - 1) n rest
        else UnmarshalXML.loop fuel startName balance n rest
      | Event.token Token.Other :: rest => UnmarshalXML.loop fuel startName balance n rest

/-- Embedding of `func (n *Node) UnmarshalXML(d *xml.Decoder, start xml.StartElement) error`,
for the start element with the local name `name` and the attributes `attr`, and the answers
`d` that the decoder gives from the call on. For a decoder with the open elements `stk` and
the remaining input `raw` these are `decoderAnswers stk raw`. -/
def Node.UnmarshalXML (n : Node) (d : List Event) (name : String)
    (attr : List (String × String)) : Outcome :=
  UnmarshalXML.loop (d.length + 1) name 1 (UnmarshalXML.begin n name attr) d

/-- The token events of `<a>\n  <b>x</b>\n</a>` after the start element `a`. -/
def tokensIndented : List Event :=
  [Event.token (Token.CharData "\n  "), Event.token (Token.StartElement "b" []),
   Event.token (Token.CharData "x"), Event.token (Token.EndElement "b"),
   Event.token (Token.CharData "\n"), Event.token (Token.EndElement "a")]

/-- The tokens that one run of the loop of `UnmarshalXML` consumes itself, in order; the
tokens that a recursive call consumes for a child are left out (the start element that
opens the child is kept). The arguments are those of `UnmarshalXML.loop`. -/
def UnmarshalXML.ownTokens : Nat → String → Nat → List Event → List Token
  | 0, _, _, _ => []
  | fuel + 1, startName, balance, d =>
    if balance = 0 then []
    else
      match d with
      | [] => []
      | Event.failure _ :: _ => []
      | Event.token (Token.CharData t) :: rest =>
        Token.CharData t :: UnmarshalXML.ownTokens fuel startName balance rest
      | Event.token (Token.StartElement name attr) :: rest =>
        if name = startName then
          Token.StartElement name attr :: UnmarshalXML.ownTokens fuel startName (balance + 1) rest
        else
          match UnmarshalXML.loop fuel name 1 (UnmarshalXML.begin Node.zero name attr) rest with
          | Outcome.done _ rest2 =>
            Token.StartElement name attr :: UnmarshalXML.ownTokens fuel startName balance rest2
          | Outcome.failed _ => [Token.StartElement name attr]
          | Outcome.outOfFuel => [Token.StartElement name attr]
      | Event.token (Token.EndElement name) :: rest =>
        if name = startName then
          Token.EndElement name :: UnmarshalXML.ownTokens fuel startName (balance - 1) rest
        else Token.EndElement name :: UnmarshalXML.ownTokens fuel startName balance rest
      | Event.token Token.Other :: rest =>
        Token.Other :: UnmarshalXML.ownTokens fuel startName balance rest

/-- A character-data text is blank when its whitespace-trimmed content is empty. -/
def isBlank (t : String) : Bool :=
  decide ((bytesTrimSpace t.data).length = 0)

/-- The text of a character-data token that is not blank. -/
def Token.text? : Token → Option String
  | Token.CharData t => if isBlank t then none else some t
  | _ => none

/-- The original text of the last character-data token of the list that is not blank. -/
def lastText (own : List Token) : Option String :=
  (own.filterMap Token.text?).getLast?

/-- The name of a start element whose name differs from `startName`. -/
def Token.childName? (startName : String) : Token → Option String
  | Token.StartElement name _ => if name = startName then none else some name
  | _ => none

/-- The names of the start elements of the list whose name differs from `startName`. -/
def childNames (startName : String) (own : List Token) : List String :=
  own.filterMap (Token.childName? startName)

/-- Whether an answer of the token source is a blank character-data token. -/
def Event.isBlankText : Event → Bool
  | Event.token (Token.CharData t) => isBlank t
  | _ => false

/-- The token source without its blank character-data tokens. -/
def dropBlank (d : List Event) : List Event :=
  d.filter (fun ev => !ev.isBlankText)

/-- The outcome with the remaining token source replaced by its image under `f`. -/
def Outcome.withRest (f : List Event → List Event) : Outcome → Outcome
  | Outcome.done n d => Outcome.done n (f d)
  | Outcome.failed e => Outcome.failed e
  | Outcome.outOfFuel => Outcome.outOfFuel

/-- No node of the tree, the root included, has a direct child whose Name is the node's own
Name. -/
def Node.sameNameFree (p : Node) : Prop :=
  ∀ m ∈ p :: p.descendants, ∀ c ∈ m.Nodes, c.Name ≠ m.Name

/-- The token events of `<a><a>t</a><b></b></a>` after the first start element `a`. -/
def tokensReentry : List Event :=
  [Event.token (Token.StartElement "a" []), Event.token (Token.CharData "t"),
   Event.token (Token.EndElement "a"), Event.token (Token.StartElement "b" []),
   Event.token (Token.EndElement "b"), Event.token (Token.EndElement "a")]

/-- Go `encoding/xml`: the answers of `(*Decoder).Token()` for a decoder whose open elements
are `stk` (innermost first) and whose remaining input lexes to `raw` (tokens, or a lexical
error). A start element is pushed on the stack; an end element must close the innermost open
element, otherwise the answer is a syntax error; at the end of the input the answer is the
syntax error `unexpected EOF` when an element is open, and `io.EOF` (the end of the list)
only when none is. An error is the last answer. The error values are held as their
messages, without the line number. -/
def decoderAnswers : List String → List Event → List Event
  | [], [] => []
  | _ :: _, [] => [Event.failure "XML syntax error: unexpected EOF"]
  | _, Event.failure e :: _ => [Event.failure e]
  | stk, Event.token (Token.StartElement name attr) :: rest =>
    Event.token (Token.StartElement name attr) :: decoderAnswers (name :: stk) rest
  | [], Event.token (Token.EndElement name) :: _ =>
    [Event.failure ("XML syntax error: unexpected end element </" ++ name ++ ">")]
  | top :: stk, Event.token (Token.EndElement name) :: rest =>
    if top = name then Event.token (Token.EndElement name) :: decoderAnswers stk rest
    else [Event.failure ("XML syntax error: element <" ++ top ++ "> closed by </" ++ name ++ ">")]
  | stk, Event.token (Token.CharData t) :: rest =>
    Event.token (Token.CharData t) :: decoderAnswers stk rest
  | stk, Event.token Token.Other :: rest => Event.token Token.Other :: decoderAnswers stk rest

/-- The nesting counters of the Tree Builder run over a list of tokens, in the words of the
specification: every node being built has a frame with its name and its `balance`, the
innermost first. A start element with the name of the innermost frame increments its
balance, a start element of another name opens a frame with balance 1, an end element with
the name of the innermost frame decrements its balance, and a frame whose balance reaches 0
is closed and removed. The result is `some rest` when all frames are closed, with the tokens
left at that point, and `none` when the tokens end before. -/
def closeRun : List (String × Nat) → List Token → Option (List Token)
  | [], toks => some toks
  | _ :: _, [] => none
  | (s, b) :: outer, Token.StartElement name _ :: rest =>
    if name = s then closeRun ((s, b + 1) :: outer) rest
    else closeRun ((name, 1) :: (s, b) :: outer) rest
  | (s, b) :: outer, Token.EndElement name :: rest =>
    if name = s then
      if b - 1 = 0 then closeRun outer rest
      else closeRun ((s, b - 1) :: outer) rest
    else closeRun ((s, b) :: outer) rest
  | (s, b) :: outer, Token.CharData _ :: rest => closeRun ((s, b) :: outer) rest
  | (s, b) :: outer, Token.Other :: rest => closeRun ((s, b) :: outer) rest

/-- The node being built for the start element `name` is closed within the tokens `toks`:
its nesting balance, which starts at 1, reaches 0. -/
def closedWithin (name : String) (toks : List Token) : Bool :=
  (closeRun [(name, 1)] toks).isSome

/-- The loop of `UnmarshalXML`, started with the name `s`, the balance `b` and the receiver
`n`, agrees with the nesting counters on the tokens `toks`. Either the node is closed within
`toks`, leaving the tokens `r`: then the loop returns `nil` with a node `n2` and with `r` and
everything after `toks` unread, whatever comes after `toks`. Or the node is not closed
within `toks`: then an error that the token source reports right after `toks` is returned,
and at the end of the input right after `toks` the loop returns `nil` with everything
read. -/
def UnmarshalXML.agrees (s : String) (b : Nat) (n : Node) (toks : List Token) : Prop :=
  (∃ (n2 : Node) (r : List Token), r.length ≤ toks.length ∧
    (∀ outer, closeRun ((s, b) :: outer) toks = closeRun outer r) ∧
    (∀ (tail : List Event) (fuel : Nat), toks.length + tail.length + 1 ≤ fuel →
      UnmarshalXML.loop fuel s b n (toks.map Event.token ++ tail)
        = Outcome.done n2 (r.map Event.token ++ tail))) ∨
  ((∀ outer, closeRun ((s, b) :: outer) toks = none) ∧
    (∀ (e : String) (post : List Event) (fuel : Nat), toks.length + post.length + 2 ≤ fuel →
      UnmarshalXML.loop fuel s b n (toks.map Event.token ++ Event.failure e :: post)
        = Outcome.failed e) ∧
    (∃ n2 : Node, ∀ fuel : Nat, toks.length + 1 ≤ fuel →
      UnmarshalXML.loop fuel s b n (toks.map Event.token) = Outcome.done n2 []))

/-! ## Lemmas on the loops -/

theorem scanNodes_eq_find (term : String) (l : List Node) :
    scanNodes term l = l.find? (fun c => decide (c.Name = term)) := by
  induction l with
  | nil => rfl
  | cons x xs ih =>
    by_cases h : x.Name = term
    · simp [scanNodes, h]
    · simp [scanNodes, h, ih]

theorem SubNodes_loop_eq (labelA : String) (bufT l : List Node) :
    SubNodes.loop labelA bufT l = bufT ++ l.filter (fun c => decide (c.Name = labelA)) := by
  induction l generalizing bufT with
  | nil => simp [SubNodes.loop]
  | cons x xs ih =>
    by_cases h : x.Name = labelA
    · simp [SubNodes.loop, h, ih]
    · simp [SubNodes.loop, h, ih]

theorem splitChars_ne_nil (sep : Char) (cs : List Char) : splitChars sep cs ≠ [] := by
  induction cs with
  | nil => simp [splitChars]
  | cons c cs ih =>
    unfold splitChars
    split
    · simp
    · split <;> simp

theorem stringsSplit_ne_nil (s : String) (sep : Char) : stringsSplit s sep ≠ [] := by
  simp [stringsSplit, splitChars_ne_nil]

theorem foldl_bind_none (labels : List String) :
    labels.foldl (fun cur l => cur.bind (fun c => firstChildNamed c l)) (none : Option Node)
      = none := by
  induction labels with
  | nil => rfl
  | cons l ls ih => simpa using ih

theorem GetSubNode_loop_eq_fold (n : Node) (labels : List String) :
    GetSubNode.loop n labels = descentFold n labels := by
  induction labels generalizing n with
  | nil => rfl
  | cons l ls ih =>
    by_cases h : l = ""
    · simp only [GetSubNode.loop, h, if_true]
      rw [ih]
      simp [descentFold]
    · simp only [GetSubNode.loop, h, if_false]
      have hf : descentFold n (l :: ls)
          = (ls.filter (fun l => decide (l ≠ ""))).foldl
              (fun cur l => cur.bind (fun c => firstChildNamed c l)) (firstChildNamed n l) := by
        simp [descentFold, h]
      rw [hf, firstChildNamed, ← scanNodes_eq_find]
      cases hs : scanNodes l n.Nodes with
      | none => simp [foldl_bind_none]
      | some c => simp [ih, descentFold]

theorem GetSubNodeX_loop_eq (n : Node) (labels : List String) :
    GetSubNodeX.loop n labels = GetSubNode.loop n labels := by
  induction labels generalizing n with
  | nil => rfl
  | cons l ls ih =>
    unfold GetSubNodeX.loop GetSubNode.loop
    split
    · exact ih n
    · split
      · exact ih _
      · rfl

theorem GetSubNodeString_loop_eq (n : Node) (labels : List String) :
    GetSubNodeString.loop n labels
      = ((GetSubNode.loop n labels).map (fun m => m.Data)).getD "" := by
  induction labels generalizing n with
  | nil => rfl
  | cons l ls ih =>
    unfold GetSubNodeString.loop GetSubNode.loop
    split
    · exact ih n
    · split
      · exact ih _
      · rfl

theorem descentFold_append (n : Node) (ls : List String) (a : String) (ha : a ≠ "") :
    descentFold n (ls ++ [a]) = (descentFold n ls).bind (fun c => firstChildNamed c a) := by
  simp [descentFold, List.filter_append, ha, List.foldl_append]

theorem descentFold_filter (n : Node) (ls : List String) :
    descentFold n (ls.filter (fun l => decide (l ≠ ""))) = descentFold n ls := by
  simp [descentFold, List.filter_filter]

theorem descentFold_none_aux (n : Node) (L : List String) (hL : ∀ l ∈ L, l ≠ "") :
    descentFold n L = none ↔
      ∃ k c, k < L.length ∧ descentFold n (L.take k) = some c ∧
        firstChildNamed c (L.getD k "") = none := by
  induction L using List.reverseRecOn with
  | nil => simp [descentFold]
  | append_singleton L a ih =>
    have ha : a ≠ "" := hL a (by simp)
    have hL2 : ∀ l ∈ L, l ≠ "" := fun l hl => hL l (by simp [hl])
    have ih2 := ih hL2
    rw [descentFold_append n L a ha]
    constructor
    · intro h
      cases hd : descentFold n L with
      | none =>
        obtain ⟨k, c, hk, hc, hn⟩ := ih2.mp hd
        refine ⟨k, c, by simp; omega, ?_, ?_⟩
        · rw [List.take_append_of_le_length (by omega)]; exact hc
        · rw [List.getD_append _ _ _ _ hk]; exact hn
      | some c =>
        rw [hd] at h
        refine ⟨L.length, c, by simp, ?_, ?_⟩
        · rw [List.take_append_of_le_length (le_refl _), List.take_length]; exact hd
        · simpa [List.getD_append_right] using h
    · rintro ⟨k, c, hk, hc, hn⟩
      by_cases hlt : k < L.length
      · rw [List.take_append_of_le_length (by omega)] at hc
        rw [List.getD_append _ _ _ _ hlt] at hn
        have : descentFold n L = none := ih2.mpr ⟨k, c, hlt, hc, hn⟩
        simp [this]
      · have hk2 : k = L.length := by simp at hk; omega
        subst hk2
        rw [List.take_append_of_le_length (le_refl _), List.take_length] at hc
        simp [List.getD_append_right] at hn
        simp [hc, hn]

theorem descentFold_eq_none_iff (n : Node) (labels : List String) :
    descentFold n labels = none ↔
      ∃ k c, k < (labels.filter (fun l => decide (l ≠ ""))).length ∧
        descentFold n ((labels.filter (fun l => decide (l ≠ ""))).take k) = some c ∧
        firstChildNamed c ((labels.filter (fun l => decide (l ≠ ""))).getD k "") = none := by
  rw [← descentFold_filter]
  apply descentFold_none_aux
  intro l hl
  simpa using (List.mem_filter.mp hl).2

/-! ## Path Navigator: claims -/

/-- C3 (as stated, refuted): on the tree of `<a><b x="1">hi</b><b x="2">yo</b></a>`, which has
no child with the empty name, `SubNodes("")` is not the sequence of the children named `""`:
it has two elements. -/
theorem C3_SubNodes_empty_label_counterexample :
    (∀ c ∈ docHiYo.Nodes, c.Name ≠ "") ∧
    docHiYo.SubNodes "" ≠ childrenNamed docHiYo "" ∧
    (docHiYo.SubNodes "").length = 2 := by
  refine ⟨by decide, ?_, by decide⟩
  intro h
  have hl := congrArg List.length h
  revert hl
  decide

/-- C3 (amended): for a non-empty label `SubNodes(label)` is exactly the sequence of the
direct children named `label`, in document order (so it is empty when there is none); for
the empty label it is the whole sequence of direct children. -/
theorem C3_SubNodes_filter (n : Node) (label : String) :
    n.SubNodes label = if label = "" then n.Nodes else childrenNamed n label := by
  unfold Node.SubNodes childrenNamed
  split
  · rfl
  · simp [SubNodes_loop_eq]

/-- C4: `GetSubNode(labels)` is the fold over the non-empty labels that replaces the current
node by its first direct child of that name; the empty list returns the node itself; the
result is not-found exactly when some step of the fold, reached with a current node `c`,
finds no child of `c` with the step's name; and on `<a><b x="1">hi</b><b x="2">yo</b></a>`
`GetSubNode("b")` is the node with `x=1` and Data `hi`. -/
theorem C4_GetSubNode_fold (n : Node) (labels : List String) :
    n.GetSubNode labels = descentFold n labels ∧
    n.GetSubNode [] = some n ∧
    (n.GetSubNode labels = none ↔
      ∃ k c, k < (labels.filter (fun l => decide (l ≠ ""))).length ∧
        descentFold n ((labels.filter (fun l => decide (l ≠ ""))).take k) = some c ∧
        firstChildNamed c ((labels.filter (fun l => decide (l ≠ ""))).getD k "") = none) ∧
    (docHiYo.GetSubNode ["b"]).map (fun m => (m.Name, m.Attrs, m.Data))
      = some ("b", [("x", "1")], "hi") := by
  have hfold : n.GetSubNode labels = descentFold n labels := by
    unfold Node.GetSubNode
    split
    · next h =>
      have : labels = [] := List.length_eq_zero.mp h
      subst this
      rfl
    · exact GetSubNode_loop_eq_fold n labels
  refine ⟨hfold, rfl, ?_, by decide⟩
  rw [hfold]
  exact descentFold_eq_none_iff n labels

/-- C5: `GetSubNodeX(path)` equals `GetSubNode` applied to the segments of `path` split on
`/`, for every node and every string (empty, or with leading, trailing or doubled
delimiters included). -/
theorem C5_GetSubNodeX_eq_GetSubNode (n : Node) (path : String) :
    n.GetSubNodeX path = n.GetSubNode (stringsSplit path '/') := by
  unfold Node.GetSubNodeX Node.GetSubNode
  simp only [GetSubNodeX_loop_eq]

/-- C6 (code evaluated at the failing input): on `<a><b x="1">hi</b><b x="2">yo</b></a>` and
the path `/b`, whose segments are `""` and `b`, `GetSubNodeX` skips the empty segment and
finds the first `b` with Data `hi`, while `GetSubNodeStringX` looks for a child with the
empty name and returns `""`. -/
theorem C6_GetSubNodeStringX_leading_delimiter :
    stringsSplit "/b" '/' = ["", "b"] ∧
    (docHiYo.GetSubNodeX "/b").map (fun m => m.Data) = some "hi" ∧
    docHiYo.GetSubNodeStringX "/b" = "" := by
  decide

/-- C7: `GetSubNodeString(labels)` is `""` when the list is empty or `GetSubNode(labels)` is
not-found, and otherwise the Data of the node `GetSubNode(labels)` returns. -/
theorem C7_GetSubNodeString_eq (n : Node) (labels : List String) :
    n.GetSubNodeString labels =
      if labels = [] then ""
      else
        match n.GetSubNode labels with
        | none => ""
        | some m => m.Data := by
  unfold Node.GetSubNodeString Node.GetSubNode
  cases labels with
  | nil => rfl
  | cons l ls =>
    simp only [List.length_cons, Nat.succ_ne_zero, if_false, GetSubNodeString_loop_eq]
    cases GetSubNode.loop n (l :: ls) <;> simp

/-! ## Lemmas on the predicate search -/

theorem GetSubNodeBy_loop_eq_find (sub value : String) (l : List Node) :
    GetSubNodeBy.loop sub value l = l.find? (fun c => condHolds c sub value) := by
  induction l with
  | nil => rfl
  | cons x xs ih =>
    unfold GetSubNodeBy.loop
    cases h : x.GetSubNode [sub] with
    | none => simp [List.find?, condHolds, h, ih]
    | some s =>
      by_cases hd : s.Data = value
      · simp [List.find?, condHolds, h, hd]
      · simp [List.find?, condHolds, h, hd, ih]

theorem GetSubNodeBy2_loop_eq_find (s1 v1 s2 v2 : String) (l : List Node) :
    GetSubNodeBy2.loop s1 v1 s2 v2 l
      = l.find? (fun c => condHolds c s1 v1 && condHolds c s2 v2) := by
  induction l with
  | nil => rfl
  | cons x xs ih =>
    unfold GetSubNodeBy2.loop
    cases h1 : x.GetSubNode [s1] with
    | none => simp [List.find?, condHolds, h1, ih]
    | some a =>
      by_cases hd1 : a.Data = v1
      · cases h2 : x.GetSubNode [s2] with
        | none => simp [List.find?, condHolds, h1, h2, hd1, ih]
        | some b =>
          by_cases hd2 : b.Data = v2
          · simp [List.find?, condHolds, h1, h2, hd1, hd2]
          · simp [List.find?, condHolds, h1, h2, hd1, hd2, ih]
      · simp [List.find?, condHolds, h1, hd1, ih]

theorem GetSubNodeStringBy_loop_eq_find (s1 v1 s2 : String) (l : List Node) :
    GetSubNodeStringBy.loop s1 v1 s2 l =
      match l.find? (fun c => condHolds c s1 v1 && hasSub c s2) with
      | none => ""
      | some c => dataAt c s2 := by
  induction l with
  | nil => rfl
  | cons x xs ih =>
    unfold GetSubNodeStringBy.loop
    cases h1 : x.GetSubNode [s1] with
    | none => simp [List.find?, condHolds, h1, ih]
    | some a =>
      by_cases hd1 : a.Data = v1
      · cases h2 : x.GetSubNode [s2] with
        | none => simp [List.find?, condHolds, hasSub, h1, h2, hd1, ih]
        | some b => simp [List.find?, condHolds, hasSub, dataAt, h1, h2, hd1]
      · simp [List.find?, condHolds, h1, hd1, ih]

theorem GetSubNodeStringBy2_loop_eq_find (s1 v1 s2 v2 s3 : String) (l : List Node) :
    GetSubNodeStringBy2.loop s1 v1 s2 v2 s3 l =
      match l.find? (fun c => condHolds c s1 v1 && condHolds c s2 v2 && hasSub c s3) with
      | none => ""
      | some c => dataAt c s3 := by
  induction l with
  | nil => rfl
  | cons x xs ih =>
    unfold GetSubNodeStringBy2.loop
    cases h1 : x.GetSubNode [s1] with
    | none => simp [List.find?, condHolds, h1, ih]
    | some a =>
      by_cases hd1 : a.Data = v1
      · cases h2 : x.GetSubNode [s2] with
        | none => simp [List.find?, condHolds, h1, h2, hd1, ih]
        | some b =>
          by_cases hd2 : b.Data = v2
          · cases h3 : x.GetSubNode [s3] with
            | none => simp [List.find?, condHolds, hasSub, h1, h2, h3, hd1, hd2, ih]
            | some d => simp [List.find?, condHolds, hasSub, dataAt, h1, h2, h3, hd1, hd2]
          · simp [List.find?, condHolds, h1, h2, hd1, hd2, ih]
      · simp [List.find?, condHolds, h1, hd1, ih]

/-- When the string-returning search stops at a candidate, it is the first candidate that
satisfies the condition: the string search and the node search agree whenever the node the
node search selects has the value sub-node. -/
theorem find_cond_and_sub (p q : Node → Bool) (l : List Node) (c : Node)
    (hc : l.find? p = some c) (hq : q c = true) :
    l.find? (fun x => p x && q x) = some c := by
  induction l with
  | nil => simp at hc
  | cons x xs ih =>
    by_cases hp : p x = true
    · have hx : x = c := by simpa [List.find?, hp] using hc
      subst hx
      simp [List.find?, hp, hq]
    · have hp2 : p x = false := by simpa using hp
      have hrest : xs.find? p = some c := by simpa [List.find?, hp2] using hc
      simp [List.find?, hp2, ih hrest]

theorem find_cond_and_sub_none (p q : Node → Bool) (l : List Node)
    (hc : l.find? p = none) : l.find? (fun x => p x && q x) = none := by
  rw [List.find?_eq_none] at hc ⊢
  intro x hx
  have := hc x hx
  simp at this ⊢
  intro h
  exact absurd h (by simp [this])

/-! ## Predicate Search: claims -/

/-- C8: `GetSubNodeBy(label, subLabel, value)` is the first element `c`, in document order,
of `SubNodes(label)` for which `c.GetSubNode(subLabel)` is found with Data equal to `value`,
and it is not-found if and only if no element of `SubNodes(label)` satisfies this. -/
theorem C8_GetSubNodeBy_first (n : Node) (label subLabel value : String) :
    n.GetSubNodeBy label subLabel value
        = (n.SubNodes label).find? (fun c => condHolds c subLabel value) ∧
    (n.GetSubNodeBy label subLabel value = none ↔
      ∀ c ∈ n.SubNodes label, condHolds c subLabel value = false) := by
  have h : n.GetSubNodeBy label subLabel value
      = (n.SubNodes label).find? (fun c => condHolds c subLabel value) := by
    unfold Node.GetSubNodeBy
    exact GetSubNodeBy_loop_eq_find subLabel value _
  refine ⟨h, ?_⟩
  rw [h, List.find?_eq_none]
  simp

/-- C9 (as stated, refuted): on `<r><b><k>1</k></b><b><k>1</k><v>x</v></b></r>` the node
search for `k = 1` among the `b` children selects the first `b`, which has no sub-node `v`,
so the claim gives `""`; `GetSubNodeStringBy` and `GetSubNodeStringBy2` go on to the second
`b` and return `x`. -/
theorem C9_GetSubNodeStringBy_counterexample :
    (docBy.GetSubNodeBy "b" "k" "1").map (fun c => (c.Nodes.map (fun m => m.Name), hasSub c "v"))
      = some (["k"], false) ∧
    docBy.GetSubNodeStringBy "b" "k" "1" "v" ≠
      (match docBy.GetSubNodeBy "b" "k" "1" with
       | none => ""
       | some c => dataAt c "v") ∧
    docBy.GetSubNodeStringBy2 "b" "k" "1" "k" "1" "v" ≠
      (match docBy.GetSubNodeBy2 "b" "k" "1" "k" "1" with
       | none => ""
       | some c => dataAt c "v") ∧
    docBy.GetSubNodeStringBy "b" "k" "1" "v" = "x" ∧
    docBy.GetSubNodeStringBy2 "b" "k" "1" "k" "1" "v" = "x" := by
  decide

/-- C9 (amended): `GetSubNodeStringBy(label, sub1, value1, sub2)` is the Data of
`c.GetSubNode(sub2)` for the first candidate `c` of `SubNodes(label)` that satisfies the
condition and has a sub-node `sub2`, and `""` when there is no such candidate; it is `""`
when `GetSubNodeBy(label, sub1, value1)` is not-found, and it reads its value from the node
`GetSubNodeBy` returns when that node has a sub-node `sub2`. The same holds for
`GetSubNodeStringBy2` relative to `GetSubNodeBy2`. -/
theorem C9_GetSubNodeStringBy_first_with_sub (n : Node)
    (label sub1 value1 sub2 value2 sub3 : String) :
    (n.GetSubNodeStringBy label sub1 value1 sub2 =
      match (n.SubNodes label).find? (fun c => condHolds c sub1 value1 && hasSub c sub2) with
      | none => ""
      | some c => dataAt c sub2) ∧
    (match n.GetSubNodeBy label sub1 value1 with
     | none => n.GetSubNodeStringBy label sub1 value1 sub2 = ""
     | some c =>
       match c.GetSubNode [sub2] with
       | some s => n.GetSubNodeStringBy label sub1 value1 sub2 = s.Data
       | none => True) ∧
    (n.GetSubNodeStringBy2 label sub1 value1 sub2 value2 sub3 =
      match (n.SubNodes label).find?
        (fun c => condHolds c sub1 value1 && condHolds c sub2 value2 && hasSub c sub3) with
      | none => ""
      | some c => dataAt c sub3) ∧
    (match n.GetSubNodeBy2 label sub1 value1 sub2 value2 with
     | none => n.GetSubNodeStringBy2 label sub1 value1 sub2 value2 sub3 = ""
     | some c =>
       match c.GetSubNode [sub3] with
       | some s => n.GetSubNodeStringBy2 label sub1 value1 sub2 value2 sub3 = s.Data
       | none => True) := by
  have e1 := GetSubNodeStringBy_loop_eq_find sub1 value1 sub2 (n.SubNodes label)
  have e2 := GetSubNodeStringBy2_loop_eq_find sub1 value1 sub2 value2 sub3 (n.SubNodes label)
  have b1 := GetSubNodeBy_loop_eq_find sub1 value1 (n.SubNodes label)
  have b2 := GetSubNodeBy2_loop_eq_find sub1 value1 sub2 value2 (n.SubNodes label)
  refine ⟨e1, ?_, e2, ?_⟩
  · unfold Node.GetSubNodeBy Node.GetSubNodeStringBy
    rw [b1, e1]
    cases hf : (n.SubNodes label).find? (fun c => condHolds c sub1 value1) with
    | none =>
      simp only
      rw [find_cond_and_sub_none _ _ _ hf]
    | some c =>
      simp only
      cases hs : c.GetSubNode [sub2] with
      | none => trivial
      | some s =>
        simp only
        rw [find_cond_and_sub _ (fun c => hasSub c sub2) _ c hf (by simp [hasSub, hs])]
        simp [dataAt, hs]
  · unfold Node.GetSubNodeBy2 Node.GetSubNodeStringBy2
    rw [b2, e2]
    cases hf : (n.SubNodes label).find?
        (fun c => condHolds c sub1 value1 && condHolds c sub2 value2) with
    | none =>
      simp only
      rw [find_cond_and_sub_none _ (fun c => hasSub c sub3) _ hf]
    | some c =>
      simp only
      cases hs : c.GetSubNode [sub3] with
      | none => trivial
      | some s =>
        simp only
        rw [find_cond_and_sub _ (fun c => hasSub c sub3) _ c hf (by simp [hasSub, hs])]
        simp [dataAt, hs]

theorem SubNodes_eq_candidates (n : Node) (label : String) :
    n.SubNodes label = if label = "" then n.Nodes else childrenNamed n label := by
  unfold Node.SubNodes childrenNamed
  split
  · rfl
  · simp [SubNodes_loop_eq]

/-! ## Search under a root path -/

theorem GetSubNodeByX_pairLoop_eq (node : Node) (kv : List String) :
    ∀ (pre : List String) (i : Nat), pre.length = i * 2 →
      GetSubNodeByX.pairLoop node (pre ++ kv) (kv.length / 2) i
        = !((pairsOf kv).all (pairHoldsX node)) := by
  induction kv using pairsOf.induct with
  | case1 a b rest ih =>
    intro pre i hpre
    have hlen : (a :: b :: rest).length / 2 = rest.length / 2 + 1 := by
      simp only [List.length_cons]; omega
    have ha : (pre ++ a :: b :: rest).getD (i * 2) "" = a := by
      rw [List.getD_append_right _ _ _ _ (by omega)]
      simp [hpre]
    have hb : (pre ++ a :: b :: rest).getD (i * 2 + 1) "" = b := by
      rw [List.getD_append_right _ _ _ _ (by omega)]
      simp [hpre]
    have hrec := ih (pre ++ [a, b]) (i + 1) (by simp [hpre]; omega)
    rw [hlen]
    unfold GetSubNodeByX.pairLoop
    rw [ha, hb]
    cases hx : node.GetSubNodeX a with
    | none => simp [pairsOf, pairHoldsX, hx]
    | some s =>
      by_cases hd : s.Data = b
      · have e : pre ++ a :: b :: rest = (pre ++ [a, b]) ++ rest := by simp
        simp only [hd, ne_eq, not_true_eq_false, if_false]
        rw [e, hrec]
        simp [pairsOf, pairHoldsX, hx, hd]
      · simp [pairsOf, pairHoldsX, hx, hd]
  | case2 kv hkv =>
    intro pre i _
    match kv, hkv with
    | [], _ => simp [GetSubNodeByX.pairLoop, pairsOf]
    | [a], _ => simp [GetSubNodeByX.pairLoop, pairsOf]
    | a :: b :: rest, h => exact absurd rfl (h a b rest)

theorem GetSubNodeByX_loop_eq_find (kv : List String) (l : List Node) :
    GetSubNodeByX.loop kv (kv.length / 2) l
      = l.find? (fun c => (pairsOf kv).all (pairHoldsX c)) := by
  induction l with
  | nil => rfl
  | cons x xs ih =>
    have h := GetSubNodeByX_pairLoop_eq x kv [] 0 rfl
    simp only [List.nil_append] at h
    unfold GetSubNodeByX.loop
    rw [h, ih]
    cases hall : (pairsOf kv).all (pairHoldsX x) <;> simp [List.find?, hall]

/-- C10 (as stated, refuted): with the empty label the candidates of `GetSubNodeByX` are not
the children named by the label. On `<a><b x="1">hi</b><b x="2">yo</b></a>` with the empty
root path, the empty label and no pair, no child is named `""`, yet the first `b` is
returned. -/
theorem C10_GetSubNodeByX_empty_label_counterexample :
    docHiYo.GetSubNodeByX "" "" [] ≠
      (match docHiYo.GetSubNode (stringsSplit "" '/') with
       | none => none
       | some r => (childrenNamed r "").find? (fun c => (pairsOf []).all (pairHoldsX c))) ∧
    (docHiYo.GetSubNodeByX "" "" []).map (fun c => (c.Name, c.Data)) = some ("b", "hi") := by
  refine ⟨?_, by decide⟩
  intro h
  have hs := congrArg Option.isSome h
  revert hs
  decide

/-- C10 (amended): `GetSubNodeByX(rootPath, label, pairs)` is not-found when the descent
along `rootPath` (split on `/`) fails; otherwise it is the first candidate `c`, in document
order, such that for every pair `c.GetSubNodeX(path)` is found with Data equal to the value,
and not-found if there is none, where the candidates are the children of the root named
`label` when `label` is non-empty and all the children of the root when `label` is empty. A
last element of the list without a partner is ignored. -/
theorem C10_GetSubNodeByX_first_all_pairs (n : Node) (rootPath label : String)
    (kv : List String) :
    n.GetSubNodeByX rootPath label kv =
      match n.GetSubNode (stringsSplit rootPath '/') with
      | none => none
      | some r =>
        (if label = "" then r.Nodes else childrenNamed r label).find?
          (fun c => (pairsOf kv).all (pairHoldsX c)) := by
  unfold Node.GetSubNodeByX
  simp only
  cases n.GetSubNode (stringsSplit rootPath '/') with
  | none => rfl
  | some r =>
    simp only
    rw [GetSubNodeByX_loop_eq_find, SubNodes_eq_candidates]

/-! ## Splitter -/

mutual
theorem Node_clone_eq : ∀ n : Node, n.clone = n
  | ⟨name, attrs, data, nodes, pathPrefix, isInvalid⟩ => by
    simp [Node.clone, cloneNodes_eq nodes]
theorem cloneNodes_eq : ∀ l : List Node, cloneNodes l = l
  | [] => rfl
  | node :: rest => by
    simp [cloneNodes, Node_clone_eq node, cloneNodes_eq rest]
end

theorem Split_removeLoop_fuel_irrel (term0 : String) :
    ∀ (fuel1 fuel2 : Nat) (nodes : List Node) (i : Nat),
      nodes.length - i ≤ fuel1 → nodes.length - i ≤ fuel2 →
      Split.removeLoop term0 fuel1 nodes i = Split.removeLoop term0 fuel2 nodes i := by
  intro fuel1
  induction fuel1 with
  | zero =>
    intro fuel2 nodes i h1 _
    have hi : ¬ i < nodes.length := by omega
    cases fuel2 with
    | zero => rfl
    | succ f => simp [Split.removeLoop, hi]
  | succ fuel1 ih =>
    intro fuel2 nodes i h1 h2
    cases fuel2 with
    | zero =>
      have hi : ¬ i < nodes.length := by omega
      simp [Split.removeLoop, hi]
    | succ fuel2 =>
      unfold Split.removeLoop
      by_cases hi : i < nodes.length
      · have hlen : (nodes.take i ++ nodes.drop (i + 1)).length = nodes.length - 1 := by
          simp; omega
        simp only [hi, if_true]
        split
        · exact ih fuel2 _ _ (by rw [hlen]; omega) (by rw [hlen]; omega)
        · exact ih fuel2 _ _ (by omega) (by omega)
      · simp [hi]

/-- The iteration bound of `Split.removeLoop` is never reached: every bound of at least
`len(nodes) - i` gives the result of the bound `len(nodes) - i`. -/
theorem Split_removeLoop_fuel (term0 : String) (fuel : Nat) (nodes : List Node) (i : Nat)
    (h : nodes.length - i ≤ fuel) :
    Split.removeLoop term0 fuel nodes i
      = Split.removeLoop term0 (nodes.length - i) nodes i :=
  Split_removeLoop_fuel_irrel term0 fuel (nodes.length - i) nodes i h (le_refl _)

theorem Split_collect_eq (term : String) (i : Nat) (children : List (List Node))
    (l : List Node) :
    Split.collect term i children l
      = children.set (i + 1) (children.getD (i + 1) []
          ++ (l.filter (fun c => decide (c.Name = term))).flatMap (fun c => c.Nodes)) := by
  induction l generalizing children with
  | nil =>
    simp only [Split.collect, List.filter_nil, List.flatMap_nil, List.append_nil]
    apply List.ext_getElem?
    intro j
    by_cases hj : i + 1 = j
    · subst hj
      by_cases hlt : i + 1 < children.length
      · simp [List.getElem?_set, hlt, List.getD_eq_getElem?_getD]
      · simp [List.getElem?_set, hlt]
        omega
    · simp [List.getElem?_set, hj]
  | cons x xs ih =>
    unfold Split.collect
    by_cases h : x.Name = term
    · simp only [h, if_true]
      rw [ih]
      by_cases hlt : i + 1 < children.length
      · simp [List.filter_cons, h, List.getD_eq_getElem?_getD, List.getElem?_set, hlt]
      · have hs : ∀ v, children.set (i + 1) v = children := fun v =>
          List.set_eq_of_length_le (by omega)
        simp [hs]
    · simp only [h, if_false]
      rw [ih]
      simp [List.filter_cons, h]

theorem Split_build_eq (n : Node) (terms : List String) (gen : Nat) (nodes leaves : List Node) :
    Split.build n terms gen nodes leaves
      = nodes ++ leaves.map (fun child =>
          { n with
            Nodes := Split.removeLoop (terms.getD 0 "") n.Nodes.length n.Nodes 0
              ++ [{ child with Name := terms.getD (gen - 1) "" }] }) := by
  induction leaves generalizing nodes with
  | nil => simp [Split.build]
  | cons x xs ih =>
    unfold Split.build
    simp only [Node_clone_eq]
    rw [ih]
    simp

/-- C1 (as stated, refuted): the tree of `<a><b><c>1</c></b><b><c>2</c></b></a>` has two
nodes named `c` under the `b` children, with Data `1` and `2`, but `Split("b.c")` returns no
node at all. -/
theorem C1_Split_two_terms_counterexample :
    (cNodesUnderB docSplit).map (fun c => c.Data) = ["1", "2"] ∧
    (docSplit.Split "b.c").length ≠ (cNodesUnderB docSplit).length ∧
    (docSplit.Split "b.c").length = 0 := by
  decide

/-- C1 (amended): `Split("b.c")` returns exactly one clone of `a` for each node that is a
child of a node named `c` that is a child of a direct child of `a` named `b`, in document
order; the i-th clone keeps the Name, Attrs and Data of `a`, and its last child is the i-th
such node renamed to `c`, with its Data, Attrs and Nodes unchanged. For the tree of
`<a><b><c>1</c></b><b><c>2</c></b></a>`, whose `c` nodes have no child, the result is
empty. -/
theorem C1_Split_two_terms_leaves (a : Node) :
    a.Split "b.c" = (leavesUnderBC a).map (fun leaf =>
      { a with
        Nodes := Split.removeLoop "b" a.Nodes.length a.Nodes 0
          ++ [{ leaf with Name := "c" }] }) ∧
    (a.Split "b.c").map (fun o => (o.Name, o.Attrs, o.Data, o.Nodes.getLast?))
      = (leavesUnderBC a).map (fun leaf =>
          (a.Name, a.Attrs, a.Data, some { leaf with Name := "c" })) ∧
    (docSplit.Split "b.c").length = 0 := by
  have hterms : stringsSplit "b.c" '.' = ["b", "c"] := by decide
  have hmain : a.Split "b.c" = (leavesUnderBC a).map (fun leaf =>
      { a with
        Nodes := Split.removeLoop "b" a.Nodes.length a.Nodes 0
          ++ [{ leaf with Name := "c" }] }) := by
    unfold Node.Split
    have hl : ¬ ("b.c".length = 0) := by decide
    simp only [hl, if_false, hterms, Split_build_eq]
    simp [Split.explore, Split_collect_eq, leavesUnderBC, cNodesUnderB, childrenNamed,
      List.replicate]
  refine ⟨hmain, ?_, by decide⟩
  rw [hmain]
  simp [List.map_map, Function.comp_def]

/-- C2 (code evaluated at the failing input): on the tree of
`<a><b><c>1</c></b><b><c>2</c></b></a>` every child is named `b`, so every output of
`Split("b")` should have the appended leaf as its only child; each output has two children
named `b`, the second original `b` (which the removal loop steps over after deleting the
first) and the appended leaf. -/
theorem C2_Split_keeps_adjacent_child :
    docSplit.Nodes.map (fun c => c.Name) = ["b", "b"] ∧
    (docSplit.Nodes.filter (fun c => decide (c.Name ≠ "b"))).length = 0 ∧
    (docSplit.Split "b").map (fun o => o.Nodes.map (fun c => (c.Name, c.Data)))
      = [[("b", ""), ("b", "1")], [("b", ""), ("b", "2")]] := by
  decide

/-! ## Recursive Finder -/

theorem String_length_eq_zero (s : String) : s.length = 0 ↔ s = "" := by
  constructor
  · intro h
    have hd : s.data = [] := List.length_eq_zero.mp h
    exact String.ext hd
  · intro h
    subst h
    rfl

theorem Node_descendants_eq (p : Node) : p.descendants = descendantsOf p.Nodes := by
  cases p
  simp [Node.descendants]

theorem Node_FindNode_eq (p : Node) (label : String) :
    p.FindNode label = if label.length = 0 then some p else FindNode.loop p.Nodes label := by
  cases p
  simp [Node.FindNode]

theorem Node_FindNodeRecursively_eq (p : Node) (label : String) :
    p.FindNodeRecursively label
      = if label.length = 0 then p else FindNodeRecursively.loop p.Nodes label := by
  cases p
  simp [Node.FindNodeRecursively]

mutual
theorem FindNode_nonempty_eq_find (label : String) (hl : label.length ≠ 0) :
    ∀ p : Node, p.FindNode label = p.descendants.find? (fun d => decide (d.Name = label))
  | ⟨name, attrs, data, nodes, pathPrefix, isInvalid⟩ => by
    simp only [Node.FindNode, hl, if_false, Node.descendants]
    exact FindNode_loop_eq_find label hl nodes
theorem FindNode_loop_eq_find (label : String) (hl : label.length ≠ 0) :
    ∀ l : List Node,
      FindNode.loop l label = (descendantsOf l).find? (fun d => decide (d.Name = label))
  | [] => rfl
  | node :: rest => by
    unfold FindNode.loop descendantsOf
    by_cases hn : node.Name = label
    · simp [hn]
    · simp only [hn, if_false, List.find?_cons, decide_False, List.find?_append]
      by_cases hc : node.Nodes.length > 0
      · simp only [hc, if_true]
        rw [FindNode_nonempty_eq_find label hl node, FindNode_loop_eq_find label hl rest]
        cases List.find? (fun d => decide (d.Name = label)) node.descendants <;> rfl
      · have hnil : node.Nodes = [] := List.length_eq_zero.mp (by omega)
        have hd : node.descendants = [] := by
          rw [Node_descendants_eq, hnil]; rfl
        simp only [hc, if_false, hd, List.find?_nil, Option.none_or]
        exact FindNode_loop_eq_find label hl rest
end

mutual
theorem FindNodeRecursively_valid_eq (label : String) (hl : label.length ≠ 0) :
    ∀ p : Node, (∀ d ∈ p.descendants, d.IsInvalid = false) →
      p.FindNodeRecursively label
        = (p.descendants.find? (fun d => decide (d.Name = label))).getD Node.invalid
  | ⟨name, attrs, data, nodes, pathPrefix, isInvalid⟩ => by
    intro hv
    simp only [Node.FindNodeRecursively, hl, if_false, Node.descendants]
    exact FindNodeRecursively_loop_valid_eq label hl nodes (by simpa [Node.descendants] using hv)
theorem FindNodeRecursively_loop_valid_eq (label : String) (hl : label.length ≠ 0) :
    ∀ l : List Node, (∀ d ∈ descendantsOf l, d.IsInvalid = false) →
      FindNodeRecursively.loop l label
        = ((descendantsOf l).find? (fun d => decide (d.Name = label))).getD Node.invalid
  | [] => fun _ => rfl
  | node :: rest => by
    intro hv
    have hvn : ∀ d ∈ node.descendants, d.IsInvalid = false := fun d hd =>
      hv d (by simp [descendantsOf, hd])
    have hvr : ∀ d ∈ descendantsOf rest, d.IsInvalid = false := fun d hd =>
      hv d (by simp [descendantsOf, hd])
    unfold FindNodeRecursively.loop descendantsOf
    by_cases hn : node.Name = label
    · simp [hn]
    · simp only [hn, if_false, List.find?_cons, decide_False, List.find?_append]
      by_cases hc : node.Nodes.length > 0
      · simp only [hc, if_true]
        rw [FindNodeRecursively_valid_eq label hl node hvn,
          FindNodeRecursively_loop_valid_eq label hl rest hvr]
        cases hf : List.find? (fun d => decide (d.Name = label)) node.descendants with
        | none => simp [Node.invalid]
        | some r =>
          have hr : r.IsInvalid = false := hvn r (List.mem_of_find?_eq_some hf)
          simp [hr]
      · have hnil : node.Nodes = [] := List.length_eq_zero.mp (by omega)
        have hd : node.descendants = [] := by
          rw [Node_descendants_eq, hnil]; rfl
        simp only [hc, if_false, hd, List.find?_nil, Option.none_or]
        exact FindNodeRecursively_loop_valid_eq label hl rest hvr
end

mutual
theorem FindNodeRecursively_absent (label : String) (hl : label.length ≠ 0) :
    ∀ p : Node, (∀ d ∈ p.descendants, d.Name ≠ label) →
      p.FindNodeRecursively label = Node.invalid
  | ⟨name, attrs, data, nodes, pathPrefix, isInvalid⟩ => by
    intro hv
    simp only [Node.FindNodeRecursively, hl, if_false]
    exact FindNodeRecursively_loop_absent label hl nodes (by simpa [Node.descendants] using hv)
theorem FindNodeRecursively_loop_absent (label : String) (hl : label.length ≠ 0) :
    ∀ l : List Node, (∀ d ∈ descendantsOf l, d.Name ≠ label) →
      FindNodeRecursively.loop l label = Node.invalid
  | [] => fun _ => rfl
  | node :: rest => by
    intro hv
    have hn : node.Name ≠ label := hv node (by simp [descendantsOf])
    have hvn : ∀ d ∈ node.descendants, d.Name ≠ label := fun d hd =>
      hv d (by simp [descendantsOf, hd])
    have hvr : ∀ d ∈ descendantsOf rest, d.Name ≠ label := fun d hd =>
      hv d (by simp [descendantsOf, hd])
    unfold FindNodeRecursively.loop
    simp only [hn, if_false]
    rw [FindNodeRecursively_absent label hl node hvn,
      FindNodeRecursively_loop_absent label hl rest hvr]
    simp [Node.invalid]
end

theorem FindNodeRecursively_loop_skip (label : String) (hl : label.length ≠ 0)
    (pre : List Node) (c : Node) (post : List Node)
    (hpre : ∀ d ∈ descendantsOf pre, d.Name ≠ label) (hc : c.Name = label) :
    FindNodeRecursively.loop (pre ++ c :: post) label = c := by
  induction pre with
  | nil => simp [FindNodeRecursively.loop, hc]
  | cons x xs ih =>
    have hn : x.Name ≠ label := hpre x (by simp [descendantsOf])
    have hvx : ∀ d ∈ x.descendants, d.Name ≠ label := fun d hd =>
      hpre d (by simp [descendantsOf, hd])
    have hvr : ∀ d ∈ descendantsOf xs, d.Name ≠ label := fun d hd =>
      hpre d (by simp [descendantsOf, hd])
    simp only [List.cons_append]
    unfold FindNodeRecursively.loop
    simp only [hn, if_false]
    rw [FindNodeRecursively_absent label hl x hvx, ih hvr]
    simp [Node.invalid]

theorem descendantsOf_append (l1 l2 : List Node) :
    descendantsOf (l1 ++ l2) = descendantsOf l1 ++ descendantsOf l2 := by
  induction l1 with
  | nil => rfl
  | cons x xs ih => simp [descendantsOf, ih]

theorem FindNodeRecursively_of_noInvalid (p : Node) (label : String) (hv : p.noInvalid) :
    p.FindNodeRecursively label = (p.FindNode label).getD Node.invalid ∧
    ∀ r, p.FindNode label = some r → r.IsInvalid = false := by
  by_cases hl : label.length = 0
  · rw [Node_FindNodeRecursively_eq, Node_FindNode_eq]
    simp only [hl, if_true, Option.getD_some, true_and]
    intro r hr
    cases hr
    exact hv.1
  · rw [FindNodeRecursively_valid_eq label hl p hv.2, FindNode_nonempty_eq_find label hl p]
    refine ⟨rfl, ?_⟩
    intro r hr
    exact hv.2 r (List.mem_of_find?_eq_some hr)

/-- C11: in a tree with no node marked invalid and for a non-empty label,
`FindNodeRecursively(label)` has `IsValid() == false` if and only if no proper descendant is
named `label`; when some proper descendant is named `label` the result is valid and its Name
is `label`. -/
theorem C11_FindNodeRecursively_invalid_iff (p : Node) (label : String)
    (hv : p.noInvalid) (hl : label ≠ "") :
    ((p.FindNodeRecursively label).IsValid = false ↔ ∀ d ∈ p.descendants, d.Name ≠ label) ∧
    ((∃ d ∈ p.descendants, d.Name = label) →
      (p.FindNodeRecursively label).IsValid = true ∧
      (p.FindNodeRecursively label).Name = label) := by
  have hl2 : label.length ≠ 0 := fun h => hl ((String_length_eq_zero label).mp h)
  rw [FindNodeRecursively_valid_eq label hl2 p hv.2]
  cases hf : p.descendants.find? (fun d => decide (d.Name = label)) with
  | none =>
    have hnone := List.find?_eq_none.mp hf
    simp only [Option.getD_none]
    constructor
    · constructor
      · intro _ d hd
        simpa using hnone d hd
      · intro _
        rfl
    · rintro ⟨d, hd, hdn⟩
      exact absurd hdn (by simpa using hnone d hd)
  | some r =>
    have hmem : r ∈ p.descendants := List.mem_of_find?_eq_some hf
    have hname : r.Name = label := by simpa using List.find?_some hf
    have hval : r.IsInvalid = false := hv.2 r hmem
    simp only [Option.getD_some]
    constructor
    · constructor
      · intro h
        simp [Node.IsValid, hval] at h
      · intro h
        exact absurd hname (h r hmem)
    · intro _
      exact ⟨by simp [Node.IsValid, hval], hname⟩

/-- C11 (witness): the tree of `<a><x><b>deep</b></x><b>shallow</b></a>` has no node marked
invalid and no node named `z`, and `FindNodeRecursively("z")` is not valid. -/
theorem C11_FindNodeRecursively_invalid_iff_witness :
    docDeep.noInvalid ∧ "z" ≠ "" ∧ (docDeep.FindNodeRecursively "z").IsValid = false :=
  have hv : docDeep.noInvalid := by unfold Node.noInvalid; decide
  ⟨hv, by decide,
    (C11_FindNodeRecursively_invalid_iff docDeep "z" hv (by decide)).1.2 (by decide)⟩

/-- C12: for a non-empty label `FindNode(label)` is the first node named `label` in the
depth-first pre-order of the proper descendants of `p`; for the empty label it is `p`
itself; it is absent exactly when the label is non-empty and no proper descendant has that
name. -/
theorem C12_FindNode_preorder (p : Node) (label : String) :
    p.FindNode label =
      (if label = "" then some p
       else p.descendants.find? (fun d => decide (d.Name = label))) ∧
    (p.FindNode label = none ↔ label ≠ "" ∧ ∀ d ∈ p.descendants, d.Name ≠ label) := by
  by_cases hl : label = ""
  · subst hl
    rw [Node_FindNode_eq]
    simp
  · have hl2 : label.length ≠ 0 := fun h => hl ((String_length_eq_zero label).mp h)
    rw [FindNode_nonempty_eq_find label hl2 p]
    simp [hl]

/-- C13 (as stated, refuted): in the tree of `<a><x><b>deep</b></x><b>shallow</b></a>` the
root has a direct child named `b` (Data `shallow`), but `FindNode("b")` and
`FindNodeRecursively("b")` return the `b` inside the earlier sibling `x` (Data `deep`). -/
theorem C13_direct_child_priority_counterexample :
    (firstChildNamed docDeep "b").map (fun c => c.Data) = some "shallow" ∧
    (docDeep.FindNode "b").map (fun c => c.Data)
      ≠ (firstChildNamed docDeep "b").map (fun c => c.Data) ∧
    (docDeep.FindNode "b").map (fun c => c.Data) = some "deep" ∧
    (docDeep.FindNodeRecursively "b").Data = "deep" := by
  decide

/-- C13 (amended): for a non-empty label, if `c` is a direct child of `p` named `label` and
neither the children before `c` nor any node of their subtrees is named `label`, then
`FindNode(label)` and `FindNodeRecursively(label)` return `c`. The subtree of a child is
searched right after the child itself and before its later siblings, so a match inside an
earlier sibling wins over a direct child that comes later. -/
theorem C13_first_direct_child_when_no_earlier_match (p : Node) (label : String)
    (pre : List Node) (c : Node) (post : List Node)
    (hl : label ≠ "") (hp : p.Nodes = pre ++ c :: post) (hc : c.Name = label)
    (hpre : ∀ d ∈ descendantsOf pre, d.Name ≠ label) :
    p.FindNode label = some c ∧ p.FindNodeRecursively label = c := by
  have hl2 : label.length ≠ 0 := fun h => hl ((String_length_eq_zero label).mp h)
  constructor
  · rw [FindNode_nonempty_eq_find label hl2 p, Node_descendants_eq, hp, descendantsOf_append]
    rw [List.find?_append]
    have hnone : (descendantsOf pre).find? (fun d => decide (d.Name = label)) = none := by
      rw [List.find?_eq_none]
      intro d hd
      simpa using hpre d hd
    rw [hnone]
    simp [descendantsOf, hc]
  · rw [Node_FindNodeRecursively_eq, hp]
    simp only [hl2, if_false]
    exact FindNodeRecursively_loop_skip label hl2 pre c post hpre hc

/-- C13 (witness): in the tree of `<a><x><y>1</y></x><b>first</b><b>second</b></a>` the
subtree of `x` has no `b`, and both finders return the first direct child named `b`. -/
theorem C13_first_direct_child_when_no_earlier_match_witness :
    "b" ≠ "" ∧
    docFirst.Nodes = [elem "x" "" [elem "y" "1" []]]
      ++ elem "b" "first" [] :: [elem "b" "second" []] ∧
    (elem "b" "first" []).Name = "b" ∧
    (∀ d ∈ descendantsOf [elem "x" "" [elem "y" "1" []]], d.Name ≠ "b") ∧
    docFirst.FindNode "b" = some (elem "b" "first" []) ∧
    docFirst.FindNodeRecursively "b" = elem "b" "first" [] :=
  ⟨by decide, rfl, rfl, by decide,
    C13_first_direct_child_when_no_earlier_match docFirst "b"
      [elem "x" "" [elem "y" "1" []]] (elem "b" "first" []) [elem "b" "second" []]
      (by decide) rfl rfl (by decide)⟩

/-- C20: in a tree with no node marked invalid and for every label, `FindNode(label)` is
absent if and only if `FindNodeRecursively(label)` is the invalid sentinel (equivalently, is
not valid), and when `FindNode` returns a node, `FindNodeRecursively` returns the same
node. -/
theorem C20_finders_agree (p : Node) (label : String) (hv : p.noInvalid) :
    (p.FindNode label = none ↔ p.FindNodeRecursively label = Node.invalid) ∧
    (p.FindNode label = none ↔ (p.FindNodeRecursively label).IsValid = false) ∧
    (∀ r, p.FindNode label = some r → p.FindNodeRecursively label = r) := by
  obtain ⟨heq, hvalid⟩ := FindNodeRecursively_of_noInvalid p label hv
  rw [heq]
  cases hf : p.FindNode label with
  | none => simp [Node.invalid, Node.IsValid]
  | some r =>
    have hr : r.IsInvalid = false := hvalid r hf
    simp only [Option.getD_some, Option.some.injEq]
    refine ⟨?_, ?_, ?_⟩
    · constructor
      · intro h; cases h
      · intro h
        rw [h] at hr
        simp [Node.invalid] at hr
    · simp [Node.IsValid, hr]
    · intro r2 h
      exact h

/-- C20 (witness): on the tree of `<a><x><b>deep</b></x><b>shallow</b></a>`, which has no
node marked invalid, `FindNode("z")` is absent, `FindNodeRecursively("z")` is not valid, and
for the label `b` both finders return the node with Data `deep`. -/
theorem C20_finders_agree_witness :
    docDeep.noInvalid ∧
    (docDeep.FindNode "z" = none ↔ (docDeep.FindNodeRecursively "z").IsValid = false) ∧
    (∀ r, docDeep.FindNode "b" = some r → docDeep.FindNodeRecursively "b" = r) :=
  have hv : docDeep.noInvalid := by unfold Node.noInvalid; decide
  ⟨hv, (C20_finders_agree docDeep "z" hv).2.1, (C20_finders_agree docDeep "b" hv).2.2⟩

/-! ## Splitter: the general label -/

theorem getD_set_nodes (l : List (List Node)) (k j : Nat) (v : List Node) (hk : k < l.length) :
    (l.set k v).getD j [] = if j = k then v else l.getD j [] := by
  simp only [List.getD_eq_getElem?_getD, List.getElem?_set]
  by_cases h : k = j
  · subst h
    simp [hk]
  · have h2 : ¬ j = k := fun e => h e.symm
    simp [h, h2]

theorem Split_explore_level (n : Node) (terms : List String) :
    ∀ (rest done : List String) (children : List (List Node)),
      terms = done ++ rest → children.length = terms.length + 1 →
      (∀ j, j ≤ done.length → children.getD j [] = Split.level n terms j) →
      (∀ j, done.length < j → children.getD j [] = []) →
      (Split.explore children done.length rest).getD terms.length []
        = Split.level n terms terms.length := by
  intro rest
  induction rest with
  | nil =>
    intro done children ht _ hlow _
    have hd : done = terms := by simpa using ht.symm
    subst hd
    simpa [Split.explore] using hlow done.length (le_refl _)
  | cons t rest ih =>
    intro done children ht hlen hlow hhigh
    have hlt : done.length + 1 < children.length := by
      rw [hlen, ht]; simp
    have hti : terms.getD done.length "" = t := by
      rw [ht, List.getD_append_right _ _ _ _ (le_refl _)]
      simp
    have hstep : Split.collect t done.length children (children.getD done.length [])
        = children.set (done.length + 1) (Split.level n terms (done.length + 1)) := by
      rw [Split_collect_eq, hhigh (done.length + 1) (by omega), hlow done.length (le_refl _)]
      simp only [Split.level, List.nil_append]
      rw [hti]
    unfold Split.explore
    rw [hstep]
    have hlen2 : (done ++ [t]).length = done.length + 1 := by simp
    have key := ih (done ++ [t])
      (children.set (done.length + 1) (Split.level n terms (done.length + 1)))
      (by simp [ht]) (by simp [hlen])
      (by
        intro j hj
        rw [hlen2] at hj
        rw [getD_set_nodes _ _ _ _ hlt]
        by_cases hjk : j = done.length + 1
        · simp [hjk]
        · simp only [hjk, if_false]
          exact hlow j (by omega))
      (by
        intro j hj
        rw [hlen2] at hj
        rw [getD_set_nodes _ _ _ _ hlt]
        have hjk : ¬ j = done.length + 1 := by omega
        simp only [hjk, if_false]
        exact hhigh j (by omega))
    rw [hlen2] at key
    exact key

theorem Split_eq_level (n : Node) (label : String) (hl : label ≠ "") :
    n.Split label = (Split.level n (stringsSplit label '.') (stringsSplit label '.').length).map
      (fun leaf =>
        { n with
          Nodes := Split.removeLoop ((stringsSplit label '.').getD 0 "") n.Nodes.length n.Nodes 0
            ++ [{ leaf with
                  Name := (stringsSplit label '.').getD
                    ((stringsSplit label '.').length - 1) "" }] }) := by
  have hl2 : ¬ (label.length = 0) := fun h => hl ((String_length_eq_zero label).mp h)
  unfold Node.Split
  simp only [hl2, if_false, Split_build_eq, List.nil_append]
  have hx := Split_explore_level n (stringsSplit label '.') (stringsSplit label '.') []
    ((List.replicate ((stringsSplit label '.').length + 1) ([] : List Node)).set 0 n.Nodes)
    (by simp) (by simp)
    (by
      intro j hj
      have hj0 : j = 0 := by simpa using hj
      subst hj0
      rw [getD_set_nodes _ _ _ _ (by simp)]
      simp [Split.level])
    (by
      intro j hj
      rw [getD_set_nodes _ _ _ _ (by simp)]
      have hj0 : ¬ j = 0 := by simp at hj; omega
      simp only [hj0, if_false, List.getD_eq_getElem?_getD]
      by_cases hjl : j < (stringsSplit label '.').length + 1
      · simp [List.getElem?_replicate, hjl]
      · simp [List.getElem?_replicate, hjl])
  simp only [List.length_nil] at hx
  rw [hx]

/-- C18: for a non-empty label with terms `t[0..N-1]`, `Split(label)` has exactly one output
per node of level `N` (level 0 being the children of `n`, level `i+1` the children of the
nodes of level `i` named `t[i]`), in the order of that level; the i-th output is `n` with its
children filtered by the removal loop and, as last child, the i-th node of level `N` renamed
to `t[N-1]` with Data, Attrs and Nodes unchanged. For the empty label the result is `[n]`. -/
theorem C18_Split_levels (n : Node) (label : String) :
    n.Split label =
      (if label = "" then [n]
       else
        (Split.level n (stringsSplit label '.') (stringsSplit label '.').length).map
          (fun leaf =>
            { n with
              Nodes :=
                Split.removeLoop ((stringsSplit label '.').getD 0 "") n.Nodes.length n.Nodes 0
                ++ [{ leaf with
                      Name := (stringsSplit label '.').getD
                        ((stringsSplit label '.').length - 1) "" }] })) ∧
    (n.Split label).length =
      (if label = "" then 1
       else (Split.level n (stringsSplit label '.') (stringsSplit label '.').length).length) ∧
    (n.Split label).map (fun o => o.Nodes.getLast?) =
      (if label = "" then [n.Nodes.getLast?]
       else
        (Split.level n (stringsSplit label '.') (stringsSplit label '.').length).map
          (fun leaf => some { leaf with
            Name := (stringsSplit label '.').getD ((stringsSplit label '.').length - 1) "" })) := by
  by_cases hl : label = ""
  · subst hl
    simp [Node.Split]
  · rw [Split_eq_level n label hl]
    simp [hl, List.map_map, Function.comp_def]

/-! ## Flattener -/

theorem find_filter_ne (m : List (String × String)) (k key : String) (h : key ≠ k) :
    (m.filter (fun e => decide (e.1 ≠ k))).find? (fun e => decide (e.1 = key))
      = m.find? (fun e => decide (e.1 = key)) := by
  induction m with
  | nil => rfl
  | cons e es ih =>
    by_cases hk : e.1 = k
    · have hne : ¬ e.1 = key := fun he => h (he.symm.trans hk)
      rw [List.filter_cons_of_neg (by simp [hk]), ih,
        List.find?_cons_of_neg _ (by simp [hne])]
    · rw [List.filter_cons_of_pos (by simp [hk])]
      by_cases hkey : e.1 = key
      · rw [List.find?_cons_of_pos _ (by simp [hkey]),
          List.find?_cons_of_pos _ (by simp [hkey])]
      · rw [List.find?_cons_of_neg _ (by simp [hkey]),
          List.find?_cons_of_neg _ (by simp [hkey]), ih]

theorem mapGet_mapPut (m : List (String × String)) (k v key : String) :
    mapGet (mapPut m k v) key = if key = k then some v else mapGet m key := by
  unfold mapGet mapPut
  by_cases h : key = k
  · subst h
    simp [List.find?_cons]
  · have h2 : ¬ k = key := fun e => h e.symm
    simp only [List.find?_cons, h2, decide_False, h, if_false]
    rw [find_filter_ne m k key h]

theorem Map_write_get (out facts : List (String × String)) (pathPrefix key : String)
    (h : ∀ k, key ≠ pathPrefix ++ "." ++ k) :
    mapGet (Map.write out pathPrefix facts) key = mapGet out key := by
  induction facts generalizing out with
  | nil => rfl
  | cons e es ih =>
    obtain ⟨k, v⟩ := e
    unfold Map.write
    rw [ih, mapGet_mapPut]
    simp [h k]

theorem Map_queue_eq (pathPrefix : String) (toProcess children : List Node) :
    Map.queue pathPrefix toProcess children
      = toProcess ++ children.map (fun child =>
          { child with pathPrefix := pathPrefix ++ ".#nodes." ++ child.Name }) := by
  induction children generalizing toProcess with
  | nil => simp [Map.queue]
  | cons c cs ih => simp [Map.queue, ih]

theorem Map_start_eq (toProcess children : List Node) :
    Map.start toProcess children
      = toProcess ++ children.map (fun node =>
          { node with pathPrefix := "#nodes." ++ node.Name }) := by
  induction children generalizing toProcess with
  | nil => simp [Map.start]
  | cons c cs ih => simp [Map.start, ih]

theorem underNodes_key (pathPrefix k : String) (h : underNodes pathPrefix) :
    underNodes (pathPrefix ++ "." ++ k) := by
  unfold underNodes at h ⊢
  obtain ⟨t, ht⟩ := h
  refine ⟨t ++ ".".data ++ k.data, ?_⟩
  simp [String.data_append, ← ht]

theorem underNodes_child (pathPrefix name : String) (h : underNodes pathPrefix) :
    underNodes (pathPrefix ++ ".#nodes." ++ name) := by
  unfold underNodes at h ⊢
  obtain ⟨t, ht⟩ := h
  refine ⟨t ++ ".#nodes.".data ++ name.data, ?_⟩
  simp [String.data_append, ← ht]

theorem underNodes_start (name : String) : underNodes ("#nodes." ++ name) := by
  unfold underNodes
  exact ⟨name.data, by simp [String.data_append]⟩

theorem Map_loop_get (key : String) (hkey : ¬ underNodes key) :
    ∀ (fuel : Nat) (out : List (String × String)) (toProcess : List Node) (i : Nat),
      (∀ node ∈ toProcess, underNodes node.pathPrefix) →
      mapGet (Map.loop fuel out toProcess i) key = mapGet out key := by
  intro fuel
  induction fuel with
  | zero => intro out toProcess i _; rfl
  | succ fuel ih =>
    intro out toProcess i hinv
    unfold Map.loop
    by_cases hi : i < toProcess.length
    · simp only [hi, if_true]
      have hmem : toProcess.getD i Node.zero ∈ toProcess := by
        rw [List.getD_eq_getElem _ _ hi]
        exact List.getElem_mem hi
      have hp := hinv _ hmem
      rw [ih]
      · apply Map_write_get
        intro k hk
        exact hkey (hk ▸ underNodes_key _ k hp)
      · intro node hn
        rw [Map_queue_eq] at hn
        rcases List.mem_append.mp hn with h1 | h2
        · exact hinv node h1
        · obtain ⟨c, _, hc⟩ := List.mem_map.mp h2
          rw [← hc]
          exact underNodes_child _ _ hp
    · simp [hi]

theorem Map_get_of_not_underNodes (n : Node) (key : String) (hkey : ¬ underNodes key) :
    mapGet n.Map key = mapGet n.flatten key := by
  unfold Node.Map
  apply Map_loop_get key hkey
  intro node hn
  rw [Map_start_eq] at hn
  simp only [List.nil_append] at hn
  obtain ⟨c, _, hc⟩ := List.mem_map.mp hn
  rw [← hc]
  exact underNodes_start _

theorem descendantsOf_map_length (g : Node → String) (l : List Node) :
    (descendantsOf (l.map (fun c => { c with pathPrefix := g c }))).length
      = (descendantsOf l).length := by
  induction l with
  | nil => rfl
  | cons x xs ih =>
    simp only [List.map_cons, descendantsOf, List.length_cons, List.length_append, ih]
    rw [Node_descendants_eq, Node_descendants_eq x]

theorem Map_loop_fuel_irrel :
    ∀ (fuel1 fuel2 : Nat) (out : List (String × String)) (toProcess : List Node) (i : Nat),
      (descendantsOf (toProcess.drop i)).length ≤ fuel1 →
      (descendantsOf (toProcess.drop i)).length ≤ fuel2 →
      Map.loop fuel1 out toProcess i = Map.loop fuel2 out toProcess i := by
  intro fuel1
  induction fuel1 with
  | zero =>
    intro fuel2 out toProcess i h1 _
    have hi : ¬ i < toProcess.length := by
      intro hlt
      rw [List.drop_eq_getElem_cons hlt] at h1
      simp [descendantsOf] at h1
    cases fuel2 with
    | zero => rfl
    | succ f => simp [Map.loop, hi]
  | succ fuel1 ih =>
    intro fuel2 out toProcess i h1 h2
    by_cases hi : i < toProcess.length
    · have hwork : (descendantsOf (toProcess.drop i)).length
          = (descendantsOf ((Map.queue (toProcess.getD i Node.zero).pathPrefix toProcess
              (toProcess.getD i Node.zero).Nodes).drop (i + 1))).length + 1 := by
        rw [Map_queue_eq, List.drop_append_of_le_length (by omega), descendantsOf_append,
          List.length_append, descendantsOf_map_length, List.drop_eq_getElem_cons hi,
          List.getD_eq_getElem _ _ hi]
        simp only [descendantsOf, List.length_cons, List.length_append, Node_descendants_eq]
        omega
      cases fuel2 with
      | zero => omega
      | succ fuel2 =>
        unfold Map.loop
        simp only [hi, if_true]
        exact ih fuel2 _ _ _ (by omega) (by omega)
    · cases fuel2 with
      | zero => simp [Map.loop, hi]
      | succ fuel2 => simp [Map.loop, hi]

/-- The iteration bound of `Map.loop` is never reached: with any bound of at least the
number of proper descendants of `n`, the loop started by `Map` gives `n.Map()`. -/
theorem Map_loop_fuel (n : Node) (fuel : Nat) (h : (descendantsOf n.Nodes).length ≤ fuel) :
    Map.loop fuel n.flatten (Map.start [] n.Nodes) 0 = n.Map := by
  unfold Node.Map
  have hw : (descendantsOf ((Map.start [] n.Nodes).drop 0)).length
      = (descendantsOf n.Nodes).length := by
    rw [Map_start_eq]
    simp only [List.nil_append, List.drop_zero]
    exact descendantsOf_map_length _ _
  exact Map_loop_fuel_irrel fuel _ _ _ 0 (by omega) (by omega)

theorem attrKey_inj (k1 k2 : String) (h : "#attr." ++ k1 = "#attr." ++ k2) : k1 = k2 := by
  have h2 := congrArg String.data h
  simp only [String.data_append, List.append_cancel_left_eq] at h2
  exact String.ext h2

theorem flatten_attrs_get_other (t attrs : List (String × String)) (key : String)
    (h : ∀ k, key ≠ "#attr." ++ k) :
    mapGet (flatten.attrs t attrs) key = mapGet t key := by
  induction attrs generalizing t with
  | nil => rfl
  | cons e es ih =>
    obtain ⟨k, v⟩ := e
    unfold flatten.attrs
    rw [ih, mapGet_mapPut]
    simp [h k]

theorem mapGet_eq_none_of_not_mem (m : List (String × String)) (k : String)
    (h : k ∉ m.map Prod.fst) : mapGet m k = none := by
  unfold mapGet
  have : m.find? (fun e => decide (e.1 = k)) = none := by
    rw [List.find?_eq_none]
    intro e he hk
    exact h (List.mem_map.mpr ⟨e, he, by simpa using hk⟩)
  rw [this]

theorem mapGet_cons (e : String × String) (m : List (String × String)) (k : String) :
    mapGet (e :: m) k = if e.1 = k then some e.2 else mapGet m k := by
  unfold mapGet
  by_cases h : e.1 = k
  · simp [List.find?_cons, h]
  · simp [List.find?_cons, h]

theorem flatten_attrs_get (t attrs : List (String × String)) (k : String)
    (hnd : (attrs.map Prod.fst).Nodup) :
    mapGet (flatten.attrs t attrs) ("#attr." ++ k) =
      match mapGet attrs k with
      | some v => some v
      | none => mapGet t ("#attr." ++ k) := by
  induction attrs generalizing t with
  | nil => rfl
  | cons e es ih =>
    obtain ⟨k1, v1⟩ := e
    have hnd2 : (es.map Prod.fst).Nodup := (List.nodup_cons.mp hnd).2
    have hnotin : k1 ∉ es.map Prod.fst := (List.nodup_cons.mp hnd).1
    unfold flatten.attrs
    rw [ih _ hnd2, mapGet_mapPut, mapGet_cons]
    by_cases hk : k1 = k
    · subst hk
      simp [mapGet_eq_none_of_not_mem es k1 hnotin]
    · have hk2 : ¬ "#attr." ++ k = "#attr." ++ k1 := fun e => hk (attrKey_inj _ _ e).symm
      simp [hk, hk2]

theorem mapGet_nil (k : String) : mapGet [] k = none := rfl

theorem not_underNodes_attr (k : String) : ¬ underNodes ("#attr." ++ k) := by
  rintro ⟨t, ht⟩
  simp [String.data_append] at ht

theorem not_underNodes_name : ¬ underNodes "#name" := by
  rintro ⟨t, ht⟩
  simp at ht

theorem not_underNodes_data : ¬ underNodes "#data" := by
  rintro ⟨t, ht⟩
  simp at ht

theorem name_ne_attrKey (k : String) : "#name" ≠ "#attr." ++ k := by
  intro h
  have h2 := congrArg String.data h
  simp [String.data_append] at h2

theorem data_ne_attrKey (k : String) : "#data" ≠ "#attr." ++ k := by
  intro h
  have h2 := congrArg String.data h
  simp [String.data_append] at h2

theorem flatten_get_name (n : Node) :
    mapGet n.flatten "#name" = if n.Name = "" then none else some n.Name := by
  unfold Node.flatten
  simp only
  rw [flatten_attrs_get_other _ _ _ name_ne_attrKey]
  by_cases hn : n.Name = "" <;> by_cases hd : n.Data = "" <;>
    simp [hn, hd, String_length_eq_zero, mapGet_mapPut, mapGet_nil]

theorem flatten_get_data (n : Node) :
    mapGet n.flatten "#data" = if n.Data = "" then none else some n.Data := by
  unfold Node.flatten
  simp only
  rw [flatten_attrs_get_other _ _ _ data_ne_attrKey]
  by_cases hn : n.Name = "" <;> by_cases hd : n.Data = "" <;>
    simp [hn, hd, String_length_eq_zero, mapGet_mapPut, mapGet_nil]

theorem flatten_get_attr (n : Node) (k : String) (hnd : (n.Attrs.map Prod.fst).Nodup) :
    mapGet n.flatten ("#attr." ++ k) = mapGet n.Attrs k := by
  unfold Node.flatten
  simp only
  rw [flatten_attrs_get _ _ _ hnd]
  have hbase : ∀ t0 : List (String × String),
      (t0 = [] ∨ t0 = mapPut [] "#name" n.Name ∨ t0 = mapPut [] "#data" n.Data
        ∨ t0 = mapPut (mapPut [] "#name" n.Name) "#data" n.Data) →
      mapGet t0 ("#attr." ++ k) = none := by
    intro t0 h
    have h1 : ¬ "#attr." ++ k = "#name" := fun e => name_ne_attrKey k e.symm
    have h2 : ¬ "#attr." ++ k = "#data" := fun e => data_ne_attrKey k e.symm
    rcases h with h | h | h | h <;> subst h <;> simp [mapGet_mapPut, mapGet_nil, h1, h2]
  rw [hbase _ (by
    by_cases hn : n.Name.length = 0 <;> by_cases hd : n.Data.length = 0 <;> simp [hn, hd])]
  cases mapGet n.Attrs k <;> rfl

/-- C14: for every node `n` whose attribute map has distinct keys (as every Go map has),
`m = n.Map()` has `m["#name"] = n.Name` (the key is absent iff the Name is empty),
`m["#data"] = n.Data` (absent iff the Data is empty) and `m["#attr."+k] = n.Attrs[k]` for
every `k`; every key that does not start with `#nodes.` has in `m` exactly the entry of
`n.flatten()`, and the keys `#name`, `#data` and `#attr.<k>` do not start with `#nodes.`, so
no entry written for a descendant overwrites or adds a key of these forms. -/
theorem C14_Map_root_facts (n : Node) (hnd : (n.Attrs.map Prod.fst).Nodup) :
    mapGet n.Map "#name" = (if n.Name = "" then none else some n.Name) ∧
    mapGet n.Map "#data" = (if n.Data = "" then none else some n.Data) ∧
    (∀ k, mapGet n.Map ("#attr." ++ k) = mapGet n.Attrs k) ∧
    (∀ key, ¬ underNodes key → mapGet n.Map key = mapGet n.flatten key) ∧
    ¬ underNodes "#name" ∧ ¬ underNodes "#data" ∧ (∀ k, ¬ underNodes ("#attr." ++ k)) := by
  refine ⟨?_, ?_, ?_, ?_, not_underNodes_name, not_underNodes_data, not_underNodes_attr⟩
  · rw [Map_get_of_not_underNodes n _ not_underNodes_name, flatten_get_name]
  · rw [Map_get_of_not_underNodes n _ not_underNodes_data, flatten_get_data]
  · intro k
    rw [Map_get_of_not_underNodes n _ (not_underNodes_attr k), flatten_get_attr n k hnd]
  · intro key hkey
    exact Map_get_of_not_underNodes n key hkey

/-- C14 (witness): the node `<a x="1" y="2">t<b x="3">hi</b></a>` has distinct attribute
keys; its map has the root's name, data and attributes, and the attribute `x` of the child
`b` does not replace the root's. -/
theorem C14_Map_root_facts_witness :
    (docAttr.Attrs.map Prod.fst).Nodup ∧
    mapGet docAttr.Map "#name" = (if docAttr.Name = "" then none else some docAttr.Name) ∧
    mapGet docAttr.Map "#data" = (if docAttr.Data = "" then none else some docAttr.Data) ∧
    (∀ k, mapGet docAttr.Map ("#attr." ++ k) = mapGet docAttr.Attrs k) ∧
    mapGet docAttr.Map "#attr.x" = some "1" ∧
    mapGet docAttr.Map "#nodes.b.#attr.x" = some "3" :=
  have h := C14_Map_root_facts docAttr (by decide)
  ⟨by decide, h.1, h.2.1, h.2.2.1, by decide, by decide⟩

/-- C15 (code evaluated at the failing input): in the tree of `<a><b x="1">1</b><b></b></a>`
the last child named `b` has neither Data nor attributes, yet `Map()` has the entries
`#nodes.b.#data` and `#nodes.b.#attr.x`, written for the first `b` and never removed. On the
tree of `<a><b>1</b><b>2</b></a>` the entry `#nodes.b.#data` is `2`. -/
theorem C15_Map_keeps_earlier_sibling_facts :
    (docStale.Nodes.getLast?).map (fun c => (c.Name, c.Data, c.Attrs)) = some ("b", "", []) ∧
    mapGet docStale.Map "#nodes.b.#data" = some "1" ∧
    mapGet docStale.Map "#nodes.b.#attr.x" = some "1" ∧
    mapGet docOneTwo.Map "#nodes.b.#data" = some "2" := by
  decide

/-! ## Tree Builder: the loop -/

theorem UnmarshalXML_loop_balance_zero (fuel : Nat) (s : String) (n : Node) (d : List Event) :
    UnmarshalXML.loop (fuel + 1) s 0 n d = Outcome.done n d := by
  simp [UnmarshalXML.loop]

theorem UnmarshalXML_loop_eof (fuel : Nat) (s : String) (b : Nat) (n : Node) (hb : b ≠ 0) :
    UnmarshalXML.loop (fuel + 1) s b n [] = Outcome.done n [] := by
  simp [UnmarshalXML.loop, hb]

theorem UnmarshalXML_loop_failure (fuel : Nat) (s : String) (b : Nat) (n : Node) (e : String)
    (rest : List Event) (hb : b ≠ 0) :
    UnmarshalXML.loop (fuel + 1) s b n (Event.failure e :: rest) = Outcome.failed e := by
  simp [UnmarshalXML.loop, hb]

theorem UnmarshalXML_loop_chars (fuel : Nat) (s : String) (b : Nat) (n : Node) (t : String)
    (rest : List Event) (hb : b ≠ 0) :
    UnmarshalXML.loop (fuel + 1) s b n (Event.token (Token.CharData t) :: rest) =
      if (bytesTrimSpace t.data).length = 0 then UnmarshalXML.loop fuel s b n rest
      else UnmarshalXML.loop fuel s b { n with Data := t } rest := by
  simp [UnmarshalXML.loop, hb]

theorem UnmarshalXML_loop_start (fuel : Nat) (s : String) (b : Nat) (n : Node) (name : String)
    (attr : List (String × String)) (rest : List Event) (hb : b ≠ 0) :
    UnmarshalXML.loop (fuel + 1) s b n (Event.token (Token.StartElement name attr) :: rest) =
      if name = s then UnmarshalXML.loop fuel s (b + 1) n rest
      else
        match UnmarshalXML.loop fuel name 1 (UnmarshalXML.begin Node.zero name attr) rest with
        | Outcome.done node rest2 =>
          UnmarshalXML.loop fuel s b { n with Nodes := n.Nodes ++ [node] } rest2
        | Outcome.failed e => Outcome.failed e
        | Outcome.outOfFuel => Outcome.outOfFuel := by
  simp [UnmarshalXML.loop, hb]

theorem UnmarshalXML_loop_end (fuel : Nat) (s : String) (b : Nat) (n : Node) (name : String)
    (rest : List Event) (hb : b ≠ 0) :
    UnmarshalXML.loop (fuel + 1) s b n (Event.token (Token.EndElement name) :: rest) =
      if name = s then UnmarshalXML.loop fuel s (b - 1) n rest
      else UnmarshalXML.loop fuel s b n rest := by
  simp [UnmarshalXML.loop, hb]

theorem UnmarshalXML_loop_other (fuel : Nat) (s : String) (b : Nat) (n : Node)
    (rest : List Event) (hb : b ≠ 0) :
    UnmarshalXML.loop (fuel + 1) s b n (Event.token Token.Other :: rest) =
      UnmarshalXML.loop fuel s b n rest := by
  simp [UnmarshalXML.loop, hb]

/-- What `UnmarshalXML` leaves of the token source is a suffix of what it was given. -/
theorem UnmarshalXML_loop_suffix :
    ∀ (fuel : Nat) (s : String) (b : Nat) (n : Node) (d : List Event) (n2 : Node)
      (rest : List Event),
      UnmarshalXML.loop fuel s b n d = Outcome.done n2 rest → rest <:+ d := by
  intro fuel
  induction fuel with
  | zero => intro s b n d n2 rest h; simp [UnmarshalXML.loop] at h
  | succ fuel ih =>
    intro s b n d n2 rest h
    by_cases hb : b = 0
    · subst hb
      rw [UnmarshalXML_loop_balance_zero] at h
      cases h
      exact List.suffix_refl _
    · cases d with
      | nil =>
        rw [UnmarshalXML_loop_eof _ _ _ _ hb] at h
        cases h
        exact List.suffix_refl _
      | cons ev d0 =>
        cases ev with
        | failure e =>
          rw [UnmarshalXML_loop_failure _ _ _ _ _ _ hb] at h
          cases h
        | token t =>
          cases t with
          | CharData text =>
            rw [UnmarshalXML_loop_chars _ _ _ _ _ _ hb] at h
            split at h
            · exact (ih _ _ _ _ _ _ h).trans (List.suffix_cons _ _)
            · exact (ih _ _ _ _ _ _ h).trans (List.suffix_cons _ _)
          | StartElement name attr =>
            rw [UnmarshalXML_loop_start _ _ _ _ _ _ _ hb] at h
            split at h
            · exact (ih _ _ _ _ _ _ h).trans (List.suffix_cons _ _)
            · split at h
              · next node rest2 hc =>
                exact ((ih _ _ _ _ _ _ h).trans (ih _ _ _ _ _ _ hc)).trans
                  (List.suffix_cons _ _)
              · cases h
              · cases h
          | EndElement name =>
            rw [UnmarshalXML_loop_end _ _ _ _ _ _ hb] at h
            split at h
            · exact (ih _ _ _ _ _ _ h).trans (List.suffix_cons _ _)
            · exact (ih _ _ _ _ _ _ h).trans (List.suffix_cons _ _)
          | Other =>
            rw [UnmarshalXML_loop_other _ _ _ _ _ hb] at h
            exact (ih _ _ _ _ _ _ h).trans (List.suffix_cons _ _)

/-- The iteration bound of `UnmarshalXML.loop` is never reached when it is larger than the
length of the token source. -/
theorem UnmarshalXML_loop_total :
    ∀ (fuel : Nat) (s : String) (b : Nat) (n : Node) (d : List Event),
      d.length + 1 ≤ fuel → UnmarshalXML.loop fuel s b n d ≠ Outcome.outOfFuel := by
  intro fuel
  induction fuel with
  | zero => intro s b n d h; omega
  | succ fuel ih =>
    intro s b n d hf
    by_cases hb : b = 0
    · subst hb
      rw [UnmarshalXML_loop_balance_zero]
      simp
    · cases d with
      | nil =>
        rw [UnmarshalXML_loop_eof _ _ _ _ hb]
        simp
      | cons ev d0 =>
        have hf0 : d0.length + 1 ≤ fuel := by simpa using hf
        cases ev with
        | failure e =>
          rw [UnmarshalXML_loop_failure _ _ _ _ _ _ hb]
          simp
        | token t =>
          cases t with
          | CharData text =>
            rw [UnmarshalXML_loop_chars _ _ _ _ _ _ hb]
            split
            · exact ih _ _ _ _ hf0
            · exact ih _ _ _ _ hf0
          | StartElement name attr =>
            rw [UnmarshalXML_loop_start _ _ _ _ _ _ _ hb]
            split
            · exact ih _ _ _ _ hf0
            · split
              · next node rest2 hc =>
                have hs := (UnmarshalXML_loop_suffix _ _ _ _ _ _ _ hc).length_le
                exact ih _ _ _ _ (by omega)
              · simp
              · next hc => exact absurd hc (ih _ _ _ _ hf0)
          | EndElement name =>
            rw [UnmarshalXML_loop_end _ _ _ _ _ _ hb]
            split
            · exact ih _ _ _ _ hf0
            · exact ih _ _ _ _ hf0
          | Other =>
            rw [UnmarshalXML_loop_other _ _ _ _ _ hb]
            exact ih _ _ _ _ hf0

theorem UnmarshalXML_loop_fuel_irrel :
    ∀ (fuel1 fuel2 : Nat) (s : String) (b : Nat) (n : Node) (d : List Event),
      d.length + 1 ≤ fuel1 → d.length + 1 ≤ fuel2 →
      UnmarshalXML.loop fuel1 s b n d = UnmarshalXML.loop fuel2 s b n d := by
  intro fuel1
  induction fuel1 with
  | zero => intro fuel2 s b n d h; omega
  | succ fuel1 ih =>
    intro fuel2 s b n d h1 h2
    cases fuel2 with
    | zero => omega
    | succ fuel2 =>
      by_cases hb : b = 0
      · subst hb
        rw [UnmarshalXML_loop_balance_zero, UnmarshalXML_loop_balance_zero]
      · cases d with
        | nil => rw [UnmarshalXML_loop_eof _ _ _ _ hb, UnmarshalXML_loop_eof _ _ _ _ hb]
        | cons ev d0 =>
          have hf1 : d0.length + 1 ≤ fuel1 := by simpa using h1
          have hf2 : d0.length + 1 ≤ fuel2 := by simpa using h2
          cases ev with
          | failure e =>
            rw [UnmarshalXML_loop_failure _ _ _ _ _ _ hb,
              UnmarshalXML_loop_failure _ _ _ _ _ _ hb]
          | token t =>
            cases t with
            | CharData text =>
              rw [UnmarshalXML_loop_chars _ _ _ _ _ _ hb, UnmarshalXML_loop_chars _ _ _ _ _ _ hb,
                ih fuel2 _ _ _ _ hf1 hf2, ih fuel2 _ _ _ _ hf1 hf2]
            | StartElement name attr =>
              rw [UnmarshalXML_loop_start _ _ _ _ _ _ _ hb,
                UnmarshalXML_loop_start _ _ _ _ _ _ _ hb,
                ih fuel2 s (b + 1) n d0 hf1 hf2,
                ih fuel2 name 1 (UnmarshalXML.begin Node.zero name attr) d0 hf1 hf2]
              split
              · rfl
              · cases hc : UnmarshalXML.loop fuel2 name 1
                    (UnmarshalXML.begin Node.zero name attr) d0 with
                | done node rest2 =>
                  have hs := (UnmarshalXML_loop_suffix _ _ _ _ _ _ _ hc).length_le
                  exact ih fuel2 _ _ _ _ (by omega) (by omega)
                | failed e => rfl
                | outOfFuel => rfl
            | EndElement name =>
              rw [UnmarshalXML_loop_end _ _ _ _ _ _ hb, UnmarshalXML_loop_end _ _ _ _ _ _ hb,
                ih fuel2 _ _ _ _ hf1 hf2, ih fuel2 _ _ _ _ hf1 hf2]
            | Other =>
              rw [UnmarshalXML_loop_other _ _ _ _ _ hb, UnmarshalXML_loop_other _ _ _ _ _ hb,
                ih fuel2 _ _ _ _ hf1 hf2]

/-- With any bound larger than the length of the token source, the loop gives the result of
`UnmarshalXML`. -/
theorem UnmarshalXML_loop_fuel (n : Node) (d : List Event) (name : String)
    (attr : List (String × String)) (fuel : Nat) (h : d.length + 1 ≤ fuel) :
    UnmarshalXML.loop fuel name 1 (UnmarshalXML.begin n name attr) d
      = n.UnmarshalXML d name attr :=
  UnmarshalXML_loop_fuel_irrel fuel (d.length + 1) name 1 _ d h (le_refl _)

/-! ## Tree Builder: the tokens of a node's own level -/

theorem lastText_nil : lastText [] = none := rfl

theorem lastText_cons_none (tok : Token) (own : List Token) (h : tok.text? = none) :
    lastText (tok :: own) = lastText own := by
  simp [lastText, List.filterMap_cons, h]

theorem lastText_cons_some (tok : Token) (own : List Token) (t : String)
    (h : tok.text? = some t) :
    lastText (tok :: own) = some ((lastText own).getD t) := by
  simp [lastText, List.filterMap_cons, h, List.getLast?_cons]

theorem childNames_cons_none (s : String) (tok : Token) (own : List Token)
    (h : tok.childName? s = none) : childNames s (tok :: own) = childNames s own := by
  simp [childNames, List.filterMap_cons, h]

theorem childNames_cons_some (s : String) (tok : Token) (own : List Token) (name : String)
    (h : tok.childName? s = some name) :
    childNames s (tok :: own) = name :: childNames s own := by
  simp [childNames, List.filterMap_cons, h]

theorem UnmarshalXML_begin_name (n : Node) (name : String) (attr : List (String × String)) :
    (UnmarshalXML.begin n name attr).Name = name := by
  unfold UnmarshalXML.begin
  simp

theorem UnmarshalXML_begin_data (n : Node) (name : String) (attr : List (String × String)) :
    (UnmarshalXML.begin n name attr).Data = n.Data := by
  unfold UnmarshalXML.begin
  split <;> simp

theorem UnmarshalXML_begin_nodes (n : Node) (name : String) (attr : List (String × String)) :
    (UnmarshalXML.begin n name attr).Nodes = n.Nodes := by
  unfold UnmarshalXML.begin
  split <;> simp

/-- What one run of the loop does to the receiver, in terms of the tokens of its own level:
Name and Attrs are unchanged, Data becomes the text of the last non-blank character-data
token (and is unchanged without one), and one child is appended for every start element of
another name, in order, carrying that name. -/
theorem UnmarshalXML_loop_trace :
    ∀ (fuel : Nat) (s : String) (b : Nat) (n : Node) (d : List Event) (n2 : Node)
      (rest : List Event),
      UnmarshalXML.loop fuel s b n d = Outcome.done n2 rest →
      n2.Name = n.Name ∧ n2.Attrs = n.Attrs ∧
      n2.Data = (lastText (UnmarshalXML.ownTokens fuel s b d)).getD n.Data ∧
      n2.Nodes.map (fun c => c.Name)
        = n.Nodes.map (fun c => c.Name) ++ childNames s (UnmarshalXML.ownTokens fuel s b d) := by
  intro fuel
  induction fuel with
  | zero => intro s b n d n2 rest h; simp [UnmarshalXML.loop] at h
  | succ fuel ih =>
    intro s b n d n2 rest h
    by_cases hb : b = 0
    · subst hb
      rw [UnmarshalXML_loop_balance_zero] at h
      cases h
      simp [UnmarshalXML.ownTokens, lastText_nil, childNames]
    · cases d with
      | nil =>
        rw [UnmarshalXML_loop_eof _ _ _ _ hb] at h
        cases h
        simp [UnmarshalXML.ownTokens, hb, lastText_nil, childNames]
      | cons ev d0 =>
        cases ev with
        | failure e =>
          rw [UnmarshalXML_loop_failure _ _ _ _ _ _ hb] at h
          cases h
        | token t =>
          cases t with
          | CharData text =>
            rw [UnmarshalXML_loop_chars _ _ _ _ _ _ hb] at h
            have hown : UnmarshalXML.ownTokens (fuel + 1) s b
                (Event.token (Token.CharData text) :: d0)
                = Token.CharData text :: UnmarshalXML.ownTokens fuel s b d0 := by
              simp [UnmarshalXML.ownTokens, hb]
            have hcn : (Token.CharData text).childName? s = none := rfl
            rw [hown, childNames_cons_none _ _ _ hcn]
            split at h
            · next hblank =>
              have htx : (Token.CharData text).text? = none := by
                simp [Token.text?, isBlank, hblank]
              rw [lastText_cons_none _ _ htx]
              exact ih _ _ _ _ _ _ h
            · next hblank =>
              have htx : (Token.CharData text).text? = some text := by
                simp [Token.text?, isBlank, hblank]
              rw [lastText_cons_some _ _ _ htx]
              obtain ⟨h1, h2, h3, h4⟩ := ih _ _ _ _ _ _ h
              exact ⟨h1, h2, by simpa using h3, h4⟩
          | StartElement name attr =>
            rw [UnmarshalXML_loop_start _ _ _ _ _ _ _ hb] at h
            have htx : (Token.StartElement name attr).text? = none := rfl
            by_cases hname : name = s
            · have hown : UnmarshalXML.ownTokens (fuel + 1) s b
                  (Event.token (Token.StartElement name attr) :: d0)
                  = Token.StartElement name attr
                      :: UnmarshalXML.ownTokens fuel s (b + 1) d0 := by
                simp [UnmarshalXML.ownTokens, hb, hname]
              have hcn : (Token.StartElement name attr).childName? s = none := by
                simp [Token.childName?, hname]
              rw [hown, childNames_cons_none _ _ _ hcn, lastText_cons_none _ _ htx]
              simp only [hname, if_true] at h
              exact ih _ _ _ _ _ _ h
            · simp only [hname, if_false] at h
              cases hc : UnmarshalXML.loop fuel name 1
                  (UnmarshalXML.begin Node.zero name attr) d0 with
              | done node rest2 =>
                rw [hc] at h
                simp only at h
                have hown : UnmarshalXML.ownTokens (fuel + 1) s b
                    (Event.token (Token.StartElement name attr) :: d0)
                    = Token.StartElement name attr
                        :: UnmarshalXML.ownTokens fuel s b rest2 := by
                  simp [UnmarshalXML.ownTokens, hb, hname, hc]
                have hcn : (Token.StartElement name attr).childName? s = some name := by
                  simp [Token.childName?, hname]
                rw [hown, childNames_cons_some _ _ _ _ hcn, lastText_cons_none _ _ htx]
                obtain ⟨h1, h2, h3, h4⟩ := ih _ _ _ _ _ _ h
                obtain ⟨c1, _, _, _⟩ := ih _ _ _ _ _ _ hc
                refine ⟨h1, h2, h3, ?_⟩
                rw [h4]
                simp [c1, UnmarshalXML_begin_name]
              | failed e => rw [hc] at h; cases h
              | outOfFuel => rw [hc] at h; cases h
          | EndElement name =>
            rw [UnmarshalXML_loop_end _ _ _ _ _ _ hb] at h
            have htx : (Token.EndElement name).text? = none := rfl
            have hcn : (Token.EndElement name).childName? s = none := rfl
            by_cases hname : name = s
            · have hown : UnmarshalXML.ownTokens (fuel + 1) s b
                  (Event.token (Token.EndElement name) :: d0)
                  = Token.EndElement name :: UnmarshalXML.ownTokens fuel s (b - 1) d0 := by
                simp [UnmarshalXML.ownTokens, hb, hname]
              rw [hown, childNames_cons_none _ _ _ hcn, lastText_cons_none _ _ htx]
              simp only [hname, if_true] at h
              exact ih _ _ _ _ _ _ h
            · have hown : UnmarshalXML.ownTokens (fuel + 1) s b
                  (Event.token (Token.EndElement name) :: d0)
                  = Token.EndElement name :: UnmarshalXML.ownTokens fuel s b d0 := by
                simp [UnmarshalXML.ownTokens, hb, hname]
              rw [hown, childNames_cons_none _ _ _ hcn, lastText_cons_none _ _ htx]
              simp only [hname, if_false] at h
              exact ih _ _ _ _ _ _ h
          | Other =>
            rw [UnmarshalXML_loop_other _ _ _ _ _ hb] at h
            have htx : Token.Other.text? = none := rfl
            have hcn : Token.Other.childName? s = none := rfl
            have hown : UnmarshalXML.ownTokens (fuel + 1) s b
                (Event.token Token.Other :: d0)
                = Token.Other :: UnmarshalXML.ownTokens fuel s b d0 := by
              simp [UnmarshalXML.ownTokens, hb]
            rw [hown, childNames_cons_none _ _ _ hcn, lastText_cons_none _ _ htx]
            exact ih _ _ _ _ _ _ h

theorem dropBlank_length_le (d : List Event) : (dropBlank d).length ≤ d.length :=
  List.length_filter_le _ _

theorem dropBlank_cons_keep (ev : Event) (d : List Event) (h : ev.isBlankText = false) :
    dropBlank (ev :: d) = ev :: dropBlank d := by
  simp [dropBlank, List.filter_cons, h]

theorem dropBlank_cons_drop (ev : Event) (d : List Event) (h : ev.isBlankText = true) :
    dropBlank (ev :: d) = dropBlank d := by
  simp [dropBlank, List.filter_cons, h]

/-- Removing the blank character-data tokens from the token source changes neither the node
that the loop builds nor the error it returns; what is left of the token source is what
was left before, without its blank character-data tokens. -/
theorem UnmarshalXML_loop_dropBlank :
    ∀ (fuel : Nat) (s : String) (b : Nat) (n : Node) (d : List Event),
      d.length + 1 ≤ fuel →
      UnmarshalXML.loop fuel s b n (dropBlank d)
        = (UnmarshalXML.loop fuel s b n d).withRest dropBlank := by
  intro fuel
  induction fuel with
  | zero => intro s b n d h; omega
  | succ fuel ih =>
    intro s b n d hf
    by_cases hb : b = 0
    · subst hb
      rw [UnmarshalXML_loop_balance_zero, UnmarshalXML_loop_balance_zero]
      rfl
    · cases d with
      | nil =>
        have : dropBlank [] = [] := rfl
        rw [this, UnmarshalXML_loop_eof _ _ _ _ hb]
        rfl
      | cons ev d0 =>
        have hf0 : d0.length + 1 ≤ fuel := by simpa using hf
        have hdl := dropBlank_length_le d0
        cases ev with
        | failure e =>
          rw [dropBlank_cons_keep (Event.failure e) d0 rfl,
            UnmarshalXML_loop_failure _ _ _ _ _ _ hb, UnmarshalXML_loop_failure _ _ _ _ _ _ hb]
          rfl
        | token t =>
          cases t with
          | CharData text =>
            rw [UnmarshalXML_loop_chars _ _ _ _ _ _ hb]
            by_cases hblank : (bytesTrimSpace text.data).length = 0
            · have hev : (Event.token (Token.CharData text)).isBlankText = true := by
                simp [Event.isBlankText, isBlank, hblank]
              rw [dropBlank_cons_drop _ _ hev]
              simp only [hblank, if_true]
              rw [UnmarshalXML_loop_fuel_irrel (fuel + 1) fuel s b n (dropBlank d0)
                (by omega) (by omega)]
              exact ih _ _ _ _ hf0
            · have hev : (Event.token (Token.CharData text)).isBlankText = false := by
                simp [Event.isBlankText, isBlank, hblank]
              rw [dropBlank_cons_keep _ _ hev, UnmarshalXML_loop_chars _ _ _ _ _ _ hb]
              simp only [hblank, if_false]
              exact ih _ _ _ _ hf0
          | StartElement name attr =>
            rw [dropBlank_cons_keep (Event.token (Token.StartElement name attr)) d0 rfl,
              UnmarshalXML_loop_start _ _ _ _ _ _ _ hb,
              UnmarshalXML_loop_start _ _ _ _ _ _ _ hb]
            by_cases hname : name = s
            · simp only [hname, if_true]
              exact ih _ _ _ _ hf0
            · simp only [hname, if_false]
              rw [ih name 1 (UnmarshalXML.begin Node.zero name attr) d0 hf0]
              cases hc : UnmarshalXML.loop fuel name 1
                  (UnmarshalXML.begin Node.zero name attr) d0 with
              | done node rest2 =>
                have hs := (UnmarshalXML_loop_suffix _ _ _ _ _ _ _ hc).length_le
                simp only [Outcome.withRest]
                exact ih _ _ _ _ (by omega)
              | failed e => rfl
              | outOfFuel => rfl
          | EndElement name =>
            rw [dropBlank_cons_keep (Event.token (Token.EndElement name)) d0 rfl,
              UnmarshalXML_loop_end _ _ _ _ _ _ hb,
              UnmarshalXML_loop_end _ _ _ _ _ _ hb]
            by_cases hname : name = s
            · simp only [hname, if_true]
              exact ih _ _ _ _ hf0
            · simp only [hname, if_false]
              exact ih _ _ _ _ hf0
          | Other =>
            rw [dropBlank_cons_keep (Event.token Token.Other) d0 rfl,
              UnmarshalXML_loop_other _ _ _ _ _ hb,
              UnmarshalXML_loop_other _ _ _ _ _ hb]
            exact ih _ _ _ _ hf0

theorem UnmarshalXML_dropBlank (n : Node) (d : List Event) (name : String)
    (attr : List (String × String)) :
    n.UnmarshalXML (dropBlank d) name attr
      = (n.UnmarshalXML d name attr).withRest dropBlank := by
  unfold Node.UnmarshalXML
  rw [UnmarshalXML_loop_fuel_irrel ((dropBlank d).length + 1) (d.length + 1) name 1 _
    (dropBlank d) (le_refl _) (by have := dropBlank_length_le d; omega)]
  exact UnmarshalXML_loop_dropBlank _ _ _ _ _ (le_refl _)

/-- C16: when `UnmarshalXML` builds a node from a fresh `Node{}`, the Data of the node is
the original, untrimmed text of the last character-data token consumed at the node's own
level whose whitespace-trimmed content is non-empty, and is empty when there is no such
token; and for every receiver, removing the blank character-data tokens from the token
source gives the same node (or the same error), so a blank token neither populates Data nor
overwrites it. -/
theorem C16_UnmarshalXML_data (d : List Event) (name : String)
    (attr : List (String × String)) (n2 : Node) (rest : List Event)
    (h : Node.zero.UnmarshalXML d name attr = Outcome.done n2 rest) :
    n2.Data = (lastText (UnmarshalXML.ownTokens (d.length + 1) name 1 d)).getD "" ∧
    Node.zero.UnmarshalXML (dropBlank d) name attr = Outcome.done n2 (dropBlank rest) ∧
    (∀ n : Node, n.UnmarshalXML (dropBlank d) name attr
      = (n.UnmarshalXML d name attr).withRest dropBlank) := by
  refine ⟨?_, ?_, fun n => UnmarshalXML_dropBlank n d name attr⟩
  · have ht := (UnmarshalXML_loop_trace _ _ _ _ _ _ _ h).2.2.1
    rw [ht, UnmarshalXML_begin_data]
    rfl
  · rw [UnmarshalXML_dropBlank, h]
    rfl

/-- C16 (witness): for the tokens of `<a>\n  <b>x</b>\n</a>` after the start element `a`,
the node built has one child and empty Data: the two blank texts at the level of `a` do not
populate it, and the text `x` belongs to the child `b`. -/
theorem C16_UnmarshalXML_data_witness :
    Node.zero.UnmarshalXML tokensIndented "a" []
      = Outcome.done (elem "a" "" [elem "b" "x" []]) [] ∧
    (elem "a" "" [elem "b" "x" []]).Data
      = (lastText (UnmarshalXML.ownTokens (tokensIndented.length + 1) "a" 1
          tokensIndented)).getD "" ∧
    Node.zero.UnmarshalXML (dropBlank tokensIndented) "a" []
      = Outcome.done (elem "a" "" [elem "b" "x" []]) (dropBlank []) :=
  have h : Node.zero.UnmarshalXML tokensIndented "a" []
      = Outcome.done (elem "a" "" [elem "b" "x" []]) [] := by rfl
  ⟨h, (C16_UnmarshalXML_data tokensIndented "a" [] _ _ h).1,
    (C16_UnmarshalXML_data tokensIndented "a" [] _ _ h).2.1⟩

/-! ## Tree Builder: same-name re-entry -/

theorem sameNameFree_iff (p : Node) :
    p.sameNameFree ↔
      (∀ c ∈ p.Nodes, c.Name ≠ p.Name) ∧
      ∀ m ∈ descendantsOf p.Nodes, ∀ c ∈ m.Nodes, c.Name ≠ m.Name := by
  unfold Node.sameNameFree
  rw [Node_descendants_eq]
  simp

theorem sameNameFree_of_no_children (p : Node) (h : p.Nodes = []) : p.sameNameFree := by
  rw [sameNameFree_iff, h]
  simp [descendantsOf]

theorem sameNameFree_set_data (p : Node) (t : String) (h : p.sameNameFree) :
    ({ p with Data := t } : Node).sameNameFree := by
  rw [sameNameFree_iff] at h ⊢
  exact h

theorem sameNameFree_append_child (p child : Node) (h : p.sameNameFree)
    (hc : child.sameNameFree) (hname : child.Name ≠ p.Name) :
    ({ p with Nodes := p.Nodes ++ [child] } : Node).sameNameFree := by
  rw [sameNameFree_iff] at h ⊢
  rw [sameNameFree_iff] at hc
  constructor
  · intro c hmem
    rcases List.mem_append.mp hmem with h1 | h2
    · exact h.1 c h1
    · have : c = child := by simpa using h2
      subst this
      exact hname
  · intro m hm
    simp only [descendantsOf_append, List.mem_append] at hm
    rcases hm with h1 | h2
    · exact h.2 m h1
    · simp only [descendantsOf, List.append_nil, List.mem_cons] at h2
      rcases h2 with h3 | h4
      · subst h3
        exact hc.1
      · rw [Node_descendants_eq] at h4
        exact hc.2 m h4

theorem UnmarshalXML_loop_sameNameFree :
    ∀ (fuel : Nat) (s : String) (b : Nat) (n : Node) (d : List Event) (n2 : Node)
      (rest : List Event),
      n.Name = s → n.sameNameFree →
      UnmarshalXML.loop fuel s b n d = Outcome.done n2 rest → n2.sameNameFree := by
  intro fuel
  induction fuel with
  | zero => intro s b n d n2 rest _ _ h; simp [UnmarshalXML.loop] at h
  | succ fuel ih =>
    intro s b n d n2 rest hn hfree h
    by_cases hb : b = 0
    · subst hb
      rw [UnmarshalXML_loop_balance_zero] at h
      cases h
      exact hfree
    · cases d with
      | nil =>
        rw [UnmarshalXML_loop_eof _ _ _ _ hb] at h
        cases h
        exact hfree
      | cons ev d0 =>
        cases ev with
        | failure e =>
          rw [UnmarshalXML_loop_failure _ _ _ _ _ _ hb] at h
          cases h
        | token t =>
          cases t with
          | CharData text =>
            rw [UnmarshalXML_loop_chars _ _ _ _ _ _ hb] at h
            split at h
            · exact ih _ _ _ _ _ _ hn hfree h
            · exact ih _ _ _ _ _ _ (by exact hn) (sameNameFree_set_data n text hfree) h
          | StartElement name attr =>
            rw [UnmarshalXML_loop_start _ _ _ _ _ _ _ hb] at h
            by_cases hname : name = s
            · simp only [hname, if_true] at h
              exact ih _ _ _ _ _ _ hn hfree h
            · simp only [hname, if_false] at h
              cases hc : UnmarshalXML.loop fuel name 1
                  (UnmarshalXML.begin Node.zero name attr) d0 with
              | done node rest2 =>
                rw [hc] at h
                simp only at h
                have hcname : node.Name = name := by
                  rw [(UnmarshalXML_loop_trace _ _ _ _ _ _ _ hc).1, UnmarshalXML_begin_name]
                have hcfree : node.sameNameFree :=
                  ih _ _ _ _ _ _ (UnmarshalXML_begin_name _ _ _)
                    (sameNameFree_of_no_children _ (by rw [UnmarshalXML_begin_nodes]; rfl)) hc
                exact ih _ _ _ _ _ _ (by exact hn)
                  (sameNameFree_append_child n node hfree hcfree
                    (by rw [hcname, hn]; exact hname)) h
              | failed e => rw [hc] at h; cases h
              | outOfFuel => rw [hc] at h; cases h
          | EndElement name =>
            rw [UnmarshalXML_loop_end _ _ _ _ _ _ hb] at h
            split at h
            · exact ih _ _ _ _ _ _ hn hfree h
            · exact ih _ _ _ _ _ _ hn hfree h
          | Other =>
            rw [UnmarshalXML_loop_other _ _ _ _ _ hb] at h
            exact ih _ _ _ _ _ _ hn hfree h

/-- C19: in the tree that `UnmarshalXML` builds from a fresh `Node{}`, no node has a direct
child whose Name equals the node's own Name. The children of the node built are, in order,
one child for every start element of another name read at the node's own level, carrying
that name; a start element with the name of the current node only increments the nesting
balance and the loop goes on with the same node. -/
theorem C19_UnmarshalXML_same_name_reentry (d : List Event) (name : String)
    (attr : List (String × String)) (n2 : Node) (rest : List Event)
    (h : Node.zero.UnmarshalXML d name attr = Outcome.done n2 rest) :
    n2.Name = name ∧ n2.sameNameFree ∧
    n2.Nodes.map (fun c => c.Name)
      = childNames name (UnmarshalXML.ownTokens (d.length + 1) name 1 d) ∧
    (∀ (fuel b : Nat) (n : Node) (attr2 : List (String × String)) (d0 : List Event),
      UnmarshalXML.loop (fuel + 1) name (b + 1) n
          (Event.token (Token.StartElement name attr2) :: d0)
        = UnmarshalXML.loop fuel name (b + 2) n d0) := by
  have ht := UnmarshalXML_loop_trace _ _ _ _ _ _ _ h
  refine ⟨?_, ?_, ?_, ?_⟩
  · rw [ht.1, UnmarshalXML_begin_name]
  · exact UnmarshalXML_loop_sameNameFree _ _ _ _ _ _ _ (UnmarshalXML_begin_name _ _ _)
      (sameNameFree_of_no_children _ (by rw [UnmarshalXML_begin_nodes]; rfl)) h
  · rw [ht.2.2.2, UnmarshalXML_begin_nodes]
    rfl
  · intro fuel b n attr2 d0
    rw [UnmarshalXML_loop_start _ _ _ _ _ _ _ (by omega)]
    simp

/-- C19 (witness): for the tokens of `<a><a>t</a><b></b></a>` after the first start element
`a`, the inner `a` creates no child: its text becomes the Data of the node, and the only
child is `b`. -/
theorem C19_UnmarshalXML_same_name_reentry_witness :
    Node.zero.UnmarshalXML tokensReentry "a" []
      = Outcome.done (elem "a" "t" [elem "b" "" []]) [] ∧
    (elem "a" "t" [elem "b" "" []]).Name = "a" ∧
    (elem "a" "t" [elem "b" "" []]).sameNameFree ∧
    (elem "a" "t" [elem "b" "" []]).Nodes.map (fun c => c.Name)
      = childNames "a" (UnmarshalXML.ownTokens (tokensReentry.length + 1) "a" 1
          tokensReentry) :=
  have h : Node.zero.UnmarshalXML tokensReentry "a" []
      = Outcome.done (elem "a" "t" [elem "b" "" []]) [] := by rfl
  have c := C19_UnmarshalXML_same_name_reentry tokensReentry "a" [] _ _ h
  ⟨h, c.1, c.2.1, c.2.2.1⟩

/-! ## Tree Builder: end of input and errors -/

/-- On a token source that reports no error, the loop always returns `nil`: the end of the
input ends it at every nesting depth. What is left of the token source is again a list of
tokens. -/
theorem UnmarshalXML_loop_tokens_done :
    ∀ (fuel : Nat) (s : String) (b : Nat) (n : Node) (toks : List Token),
      toks.length + 1 ≤ fuel →
      ∃ (n2 : Node) (toks2 : List Token), toks2.length ≤ toks.length ∧
        UnmarshalXML.loop fuel s b n (toks.map Event.token)
          = Outcome.done n2 (toks2.map Event.token) := by
  intro fuel
  induction fuel with
  | zero => intro s b n toks h; omega
  | succ fuel ih =>
    intro s b n toks hf
    by_cases hb : b = 0
    · subst hb
      exact ⟨n, toks, le_refl _, UnmarshalXML_loop_balance_zero _ _ _ _⟩
    · cases toks with
      | nil => exact ⟨n, [], le_refl _, UnmarshalXML_loop_eof _ _ _ _ hb⟩
      | cons t toks0 =>
        have hf0 : toks0.length + 1 ≤ fuel := by simpa using hf
        simp only [List.map_cons, List.length_cons]
        cases t with
        | CharData text =>
          rw [UnmarshalXML_loop_chars _ _ _ _ _ _ hb]
          split
          · obtain ⟨n2, toks2, hl, h⟩ := ih s b n toks0 hf0
            exact ⟨n2, toks2, by omega, h⟩
          · obtain ⟨n2, toks2, hl, h⟩ := ih s b { n with Data := text } toks0 hf0
            exact ⟨n2, toks2, by omega, h⟩
        | StartElement name attr =>
          rw [UnmarshalXML_loop_start _ _ _ _ _ _ _ hb]
          split
          · obtain ⟨n2, toks2, hl, h⟩ := ih s (b + 1) n toks0 hf0
            exact ⟨n2, toks2, by omega, h⟩
          · obtain ⟨child, toks1, hl1, h1⟩ :=
              ih name 1 (UnmarshalXML.begin Node.zero name attr) toks0 hf0
            rw [h1]
            obtain ⟨n2, toks2, hl, h⟩ :=
              ih s b { n with Nodes := n.Nodes ++ [child] } toks1 (by omega)
            exact ⟨n2, toks2, by omega, h⟩
        | EndElement name =>
          rw [UnmarshalXML_loop_end _ _ _ _ _ _ hb]
          split
          · obtain ⟨n2, toks2, hl, h⟩ := ih s (b - 1) n toks0 hf0
            exact ⟨n2, toks2, by omega, h⟩
          · obtain ⟨n2, toks2, hl, h⟩ := ih s b n toks0 hf0
            exact ⟨n2, toks2, by omega, h⟩
        | Other =>
          rw [UnmarshalXML_loop_other _ _ _ _ _ hb]
          obtain ⟨n2, toks2, hl, h⟩ := ih s b n toks0 hf0
          exact ⟨n2, toks2, by omega, h⟩

/-- On a token source whose first error `e` comes after the tokens `pre`, the loop either
returns `e`, or it returns `nil` before reading the error: then the error is still ahead in
what is left of the token source, and the node is the one built from `pre` alone. -/
theorem UnmarshalXML_loop_first_failure :
    ∀ (fuel : Nat) (s : String) (b : Nat) (n : Node) (pre : List Token) (e : String)
      (post : List Event),
      pre.length + post.length + 2 ≤ fuel →
      UnmarshalXML.loop fuel s b n (pre.map Event.token ++ Event.failure e :: post)
          = Outcome.failed e ∨
      ∃ (n2 : Node) (pre2 : List Token), pre2.length ≤ pre.length ∧
        UnmarshalXML.loop fuel s b n (pre.map Event.token ++ Event.failure e :: post)
          = Outcome.done n2 (pre2.map Event.token ++ Event.failure e :: post) ∧
        UnmarshalXML.loop fuel s b n (pre.map Event.token)
          = Outcome.done n2 (pre2.map Event.token) := by
  intro fuel
  induction fuel with
  | zero => intro s b n pre e post h; omega
  | succ fuel ih =>
    intro s b n pre e post hf
    by_cases hb : b = 0
    · subst hb
      exact Or.inr ⟨n, pre, le_refl _, UnmarshalXML_loop_balance_zero _ _ _ _,
        UnmarshalXML_loop_balance_zero _ _ _ _⟩
    · cases pre with
      | nil => exact Or.inl (UnmarshalXML_loop_failure _ _ _ _ _ _ hb)
      | cons t pre0 =>
        have hf0 : pre0.length + post.length + 2 ≤ fuel := by
          simp only [List.length_cons] at hf; omega
        simp only [List.map_cons, List.cons_append, List.length_cons]
        cases t with
        | CharData text =>
          rw [UnmarshalXML_loop_chars _ _ _ _ _ _ hb, UnmarshalXML_loop_chars _ _ _ _ _ _ hb]
          split
          · rcases ih s b n pre0 e post hf0 with h | ⟨n2, pre2, hl, h1, h2⟩
            · exact Or.inl h
            · exact Or.inr ⟨n2, pre2, by omega, h1, h2⟩
          · rcases ih s b { n with Data := text } pre0 e post hf0 with
              h | ⟨n2, pre2, hl, h1, h2⟩
            · exact Or.inl h
            · exact Or.inr ⟨n2, pre2, by omega, h1, h2⟩
        | StartElement name attr =>
          rw [UnmarshalXML_loop_start _ _ _ _ _ _ _ hb,
            UnmarshalXML_loop_start _ _ _ _ _ _ _ hb]
          split
          · rcases ih s (b + 1) n pre0 e post hf0 with h | ⟨n2, pre2, hl, h1, h2⟩
            · exact Or.inl h
            · exact Or.inr ⟨n2, pre2, by omega, h1, h2⟩
          · rcases ih name 1 (UnmarshalXML.begin Node.zero name attr) pre0 e post hf0 with
              h | ⟨child, pre1, hl1, c1, c2⟩
            · rw [h]
              exact Or.inl rfl
            · rw [c1, c2]
              rcases ih s b { n with Nodes := n.Nodes ++ [child] } pre1 e post (by omega) with
                h | ⟨n2, pre2, hl, h1, h2⟩
              · exact Or.inl h
              · exact Or.inr ⟨n2, pre2, by omega, h1, h2⟩
        | EndElement name =>
          rw [UnmarshalXML_loop_end _ _ _ _ _ _ hb, UnmarshalXML_loop_end _ _ _ _ _ _ hb]
          split
          · rcases ih s (b - 1) n pre0 e post hf0 with h | ⟨n2, pre2, hl, h1, h2⟩
            · exact Or.inl h
            · exact Or.inr ⟨n2, pre2, by omega, h1, h2⟩
          · rcases ih s b n pre0 e post hf0 with h | ⟨n2, pre2, hl, h1, h2⟩
            · exact Or.inl h
            · exact Or.inr ⟨n2, pre2, by omega, h1, h2⟩
        | Other =>
          rw [UnmarshalXML_loop_other _ _ _ _ _ hb, UnmarshalXML_loop_other _ _ _ _ _ hb]
          rcases ih s b n pre0 e post hf0 with h | ⟨n2, pre2, hl, h1, h2⟩
          · exact Or.inl h
          · exact Or.inr ⟨n2, pre2, by omega, h1, h2⟩

/-- Every token source is a list of tokens, or a list of tokens followed by a first error
and the rest. -/
theorem events_tokens_or_failure (d : List Event) :
    (∃ toks : List Token, d = toks.map Event.token) ∨
    (∃ (pre : List Token) (e : String) (post : List Event),
      d = pre.map Event.token ++ Event.failure e :: post) := by
  induction d with
  | nil => exact Or.inl ⟨[], rfl⟩
  | cons ev d0 ih =>
    cases ev with
    | failure e => exact Or.inr ⟨[], e, d0, rfl⟩
    | token t =>
      rcases ih with ⟨toks, h⟩ | ⟨pre, e, post, h⟩
      · exact Or.inl ⟨t :: toks, by simp [h]⟩
      · exact Or.inr ⟨t :: pre, e, post, by simp [h]⟩

/-! ## Tree Builder: closing -/

theorem UnmarshalXML_agrees_nil (s : String) (b : Nat) (n : Node) (hb : b ≠ 0) :
    UnmarshalXML.agrees s b n [] := by
  refine Or.inr ⟨fun outer => rfl, ?_, n, ?_⟩
  · intro e post fuel hf
    cases fuel with
    | zero => omega
    | succ f => exact UnmarshalXML_loop_failure _ _ _ _ _ _ hb
  · intro fuel hf
    cases fuel with
    | zero => omega
    | succ f => exact UnmarshalXML_loop_eof _ _ _ _ hb

/-- A token that only changes the balance or the receiver and lets the loop go on carries
the agreement over from the rest of the tokens. -/
theorem UnmarshalXML_agrees_step (s : String) (b b2 : Nat) (n n1 : Node) (t : Token)
    (r0 : List Token)
    (hrun : ∀ outer, closeRun ((s, b) :: outer) (t :: r0) = closeRun ((s, b2) :: outer) r0)
    (hloop : ∀ (fuel : Nat) (d : List Event),
      UnmarshalXML.loop (fuel + 1) s b n (Event.token t :: d) = UnmarshalXML.loop fuel s b2 n1 d)
    (h : UnmarshalXML.agrees s b2 n1 r0) : UnmarshalXML.agrees s b n (t :: r0) := by
  rcases h with ⟨n2, r, hl, hc, hd⟩ | ⟨hc, hf, n2, hd⟩
  · refine Or.inl ⟨n2, r, by simp; omega, fun outer => (hrun outer).trans (hc outer), ?_⟩
    intro tail fuel hfuel
    cases fuel with
    | zero => omega
    | succ f =>
      simp only [List.map_cons, List.cons_append]
      rw [hloop]
      exact hd tail f (by simp only [List.length_cons] at hfuel; omega)
  · refine Or.inr ⟨fun outer => (hrun outer).trans (hc outer), ?_, n2, ?_⟩
    · intro e post fuel hfuel
      cases fuel with
      | zero => omega
      | succ f =>
        simp only [List.map_cons, List.cons_append]
        rw [hloop]
        exact hf e post f (by simp only [List.length_cons] at hfuel; omega)
    · intro fuel hfuel
      cases fuel with
      | zero => omega
      | succ f =>
        simp only [List.map_cons]
        rw [hloop]
        exact hd f (by simp only [List.length_cons] at hfuel; omega)

/-- The loop of `UnmarshalXML` agrees with the nesting counters on every list of tokens. -/
theorem UnmarshalXML_loop_agrees :
    ∀ (k : Nat) (s : String) (b : Nat) (n : Node) (toks : List Token),
      b ≠ 0 → toks.length ≤ k → UnmarshalXML.agrees s b n toks := by
  intro k
  induction k with
  | zero =>
    intro s b n toks hb hk
    have : toks = [] := List.length_eq_zero.mp (by omega)
    subst this
    exact UnmarshalXML_agrees_nil s b n hb
  | succ k ih =>
    intro s b n toks hb hk
    cases toks with
    | nil => exact UnmarshalXML_agrees_nil s b n hb
    | cons t r0 =>
      have hk0 : r0.length ≤ k := by simpa using hk
      cases t with
      | CharData text =>
        by_cases hblank : (bytesTrimSpace text.data).length = 0
        · exact UnmarshalXML_agrees_step s b b n n _ r0 (fun outer => by simp [closeRun])
            (fun fuel d => by rw [UnmarshalXML_loop_chars _ _ _ _ _ _ hb]; simp [hblank])
            (ih s b n r0 hb hk0)
        · exact UnmarshalXML_agrees_step s b b n { n with Data := text } _ r0
            (fun outer => by simp [closeRun])
            (fun fuel d => by rw [UnmarshalXML_loop_chars _ _ _ _ _ _ hb]; simp [hblank])
            (ih s b _ r0 hb hk0)
      | Other =>
        exact UnmarshalXML_agrees_step s b b n n _ r0 (fun outer => by simp [closeRun])
          (fun fuel d => UnmarshalXML_loop_other _ _ _ _ _ hb)
          (ih s b n r0 hb hk0)
      | EndElement name =>
        by_cases hname : name = s
        · by_cases hzero : b - 1 = 0
          · refine Or.inl ⟨n, r0, by simp, fun outer => by simp [closeRun, hname, hzero], ?_⟩
            intro tail fuel hfuel
            cases fuel with
            | zero => omega
            | succ f =>
              simp only [List.map_cons, List.cons_append]
              rw [UnmarshalXML_loop_end _ _ _ _ _ _ hb]
              simp only [hname, if_true, hzero]
              cases f with
              | zero => simp only [List.length_cons] at hfuel; omega
              | succ f2 => exact UnmarshalXML_loop_balance_zero _ _ _ _
          · exact UnmarshalXML_agrees_step s b (b - 1) n n _ r0
              (fun outer => by simp [closeRun, hname, hzero])
              (fun fuel d => by rw [UnmarshalXML_loop_end _ _ _ _ _ _ hb]; simp [hname])
              (ih s (b - 1) n r0 hzero hk0)
        · exact UnmarshalXML_agrees_step s b b n n _ r0
            (fun outer => by simp [closeRun, hname])
            (fun fuel d => by rw [UnmarshalXML_loop_end _ _ _ _ _ _ hb]; simp [hname])
            (ih s b n r0 hb hk0)
      | StartElement name attr =>
        by_cases hname : name = s
        · exact UnmarshalXML_agrees_step s b (b + 1) n n _ r0
            (fun outer => by simp [closeRun, hname])
            (fun fuel d => by rw [UnmarshalXML_loop_start _ _ _ _ _ _ _ hb]; simp [hname])
            (ih s (b + 1) n r0 (by omega) hk0)
        · have hrun : ∀ outer, closeRun ((s, b) :: outer) (Token.StartElement name attr :: r0)
              = closeRun ((name, 1) :: (s, b) :: outer) r0 := by
            intro outer
            simp [closeRun, hname]
          rcases ih name 1 (UnmarshalXML.begin Node.zero name attr) r0 (by omega) hk0 with
            ⟨child, r1, hl1, hc1, hd1⟩ | ⟨hc1, hf1, child, hd1⟩
          · rcases ih s b { n with Nodes := n.Nodes ++ [child] } r1 hb (by omega) with
              ⟨n2, r, hl, hc, hd⟩ | ⟨hc, hf, n2, hd⟩
            · refine Or.inl ⟨n2, r, by simp; omega,
                fun outer => ((hrun outer).trans (hc1 _)).trans (hc outer), ?_⟩
              intro tail fuel hfuel
              cases fuel with
              | zero => omega
              | succ f =>
                simp only [List.length_cons] at hfuel
                simp only [List.map_cons, List.cons_append]
                rw [UnmarshalXML_loop_start _ _ _ _ _ _ _ hb]
                simp only [hname, if_false]
                rw [hd1 tail f (by omega)]
                exact hd tail f (by omega)
            · refine Or.inr ⟨fun outer => ((hrun outer).trans (hc1 _)).trans (hc outer),
                ?_, n2, ?_⟩
              · intro e post fuel hfuel
                cases fuel with
                | zero => omega
                | succ f =>
                  simp only [List.length_cons] at hfuel
                  simp only [List.map_cons, List.cons_append]
                  rw [UnmarshalXML_loop_start _ _ _ _ _ _ _ hb]
                  simp only [hname, if_false]
                  rw [hd1 (Event.failure e :: post) f (by simp only [List.length_cons]; omega)]
                  exact hf e post f (by omega)
              · intro fuel hfuel
                cases fuel with
                | zero => omega
                | succ f =>
                  simp only [List.length_cons] at hfuel
                  simp only [List.map_cons]
                  rw [UnmarshalXML_loop_start _ _ _ _ _ _ _ hb]
                  simp only [hname, if_false]
                  have h1 := hd1 [] f (by simp only [List.length_nil]; omega)
                  simp only [List.append_nil] at h1
                  rw [h1]
                  exact hd f (by omega)
          · refine Or.inr ⟨fun outer => (hrun outer).trans (hc1 _), ?_,
              { n with Nodes := n.Nodes ++ [child] }, ?_⟩
            · intro e post fuel hfuel
              cases fuel with
              | zero => omega
              | succ f =>
                simp only [List.length_cons] at hfuel
                simp only [List.map_cons, List.cons_append]
                rw [UnmarshalXML_loop_start _ _ _ _ _ _ _ hb]
                simp only [hname, if_false]
                rw [hf1 e post f (by omega)]
            · intro fuel hfuel
              cases fuel with
              | zero => omega
              | succ f =>
                simp only [List.length_cons] at hfuel
                simp only [List.map_cons]
                rw [UnmarshalXML_loop_start _ _ _ _ _ _ _ hb]
                simp only [hname, if_false]
                rw [hd1 f (by omega)]
                cases f with
                | zero => omega
                | succ f2 => exact UnmarshalXML_loop_eof _ _ _ _ hb

/-- C17: `UnmarshalXML` returns the error `e` if and only if the token source reports `e` as
its first error and the node being built is not closed within the tokens before it (its
nesting balance has not reached 0; the error may be read by the call for a descendant). If
the node is closed within the tokens, `UnmarshalXML` returns `nil` there and reads nothing
further; if the token source signals the end of the input before the node is closed, at
whatever nesting depth, `UnmarshalXML` returns `nil` with all tokens read. With a
`*xml.Decoder` no element open, the input `<b>hi</b>` and the start element `a`, the end of
the input comes with the balance at 1 and the result is `nil` with the node `a` holding the
child `b`; with the decoder inside `a` and the input `<b>hi`, the decoder reports the syntax
error `unexpected EOF` while `b` is built, and that is the result; so is an error of the
input inside `b`. -/
theorem C17_UnmarshalXML_errors (n : Node) (name : String) (attr : List (String × String)) :
    (∀ (d : List Event) (e : String),
      n.UnmarshalXML d name attr = Outcome.failed e ↔
        ∃ (pre : List Token) (post : List Event),
          d = pre.map Event.token ++ Event.failure e :: post ∧ closedWithin name pre = false) ∧
    (∀ toks : List Token,
      match closeRun [(name, 1)] toks with
      | some r => ∃ n2 : Node, ∀ tail : List Event,
          n.UnmarshalXML (toks.map Event.token ++ tail) name attr
            = Outcome.done n2 (r.map Event.token ++ tail)
      | none => ∃ n2 : Node,
          n.UnmarshalXML (toks.map Event.token) name attr = Outcome.done n2 []) ∧
    Node.zero.UnmarshalXML
        (decoderAnswers [] [Event.token (Token.StartElement "b" []),
          Event.token (Token.CharData "hi"), Event.token (Token.EndElement "b")]) "a" []
      = Outcome.done (elem "a" "" [elem "b" "hi" []]) [] ∧
    Node.zero.UnmarshalXML
        (decoderAnswers ["a"] [Event.token (Token.StartElement "b" []),
          Event.token (Token.CharData "hi")]) "a" []
      = Outcome.failed "XML syntax error: unexpected EOF" ∧
    Node.zero.UnmarshalXML
        (decoderAnswers ["a"] [Event.token (Token.StartElement "b" []), Event.failure "boom",
          Event.token (Token.EndElement "b")]) "a" []
      = Outcome.failed "boom" := by
  have hag : ∀ toks : List Token,
      UnmarshalXML.agrees name 1 (UnmarshalXML.begin n name attr) toks := fun toks =>
    UnmarshalXML_loop_agrees toks.length name 1 _ toks (by omega) (le_refl _)
  refine ⟨?_, ?_, by rfl, by rfl, by rfl⟩
  · intro d e
    constructor
    · intro h
      rcases events_tokens_or_failure d with ⟨toks, hd⟩ | ⟨pre, e2, post, hd⟩
      · subst hd
        unfold Node.UnmarshalXML at h
        rcases hag toks with ⟨n2, r, _, _, hdone⟩ | ⟨_, _, n2, hdone⟩
        · have h2 := hdone [] ((toks.map Event.token).length + 1) (by simp)
          simp only [List.append_nil] at h2
          rw [h2] at h
          cases h
        · rw [hdone _ (by simp)] at h
          cases h
      · subst hd
        unfold Node.UnmarshalXML at h
        rcases hag pre with ⟨n2, r, _, _, hdone⟩ | ⟨hc, hf, _⟩
        · rw [hdone (Event.failure e2 :: post) _ (by simp)] at h
          cases h
        · rw [hf e2 post _ (by simp; omega)] at h
          cases h
          exact ⟨pre, post, rfl, by simp [closedWithin, hc []]⟩
    · rintro ⟨pre, post, hd, hclosed⟩
      subst hd
      unfold Node.UnmarshalXML
      rcases hag pre with ⟨n2, r, _, hc, _⟩ | ⟨_, hf, _⟩
      · have : closeRun [(name, 1)] pre = some r := by rw [hc []]; simp [closeRun]
        simp [closedWithin, this] at hclosed
      · exact hf e post _ (by simp; omega)
  · intro toks
    rcases hag toks with ⟨n2, r, _, hc, hdone⟩ | ⟨hc, _, n2, hdone⟩
    · have hr : closeRun [(name, 1)] toks = some r := by rw [hc []]; simp [closeRun]
      rw [hr]
      exact ⟨n2, fun tail => hdone tail _ (by simp)⟩
    · rw [hc []]
      exact ⟨n2, hdone _ (by simp)⟩

end Xmlx
